import Mathlib

/-!
# A shallow embedding of the apollo-http message/URL core

This file models the JavaScript source of the `apollo-http` package:

* `HeaderCollection` (src `HeaderCollection.js`) — a case-insensitive,
  casing-preserving multimap backed by a JavaScript `Map`;
* `Url` (src `Url.js`) — the eight-component URL value object with
  percent-encoding of path/query/fragment and `toString` serialization;
* `Message`/`Request`/`Response` (src `Message.js`, `Request.js`,
  `Response.js`) — the immutable message model with copy-on-write
  mutators and the `createMessage` clone-constructor hook.

Modelling conventions:

* JavaScript strings are modelled by Lean `String` (a list of Unicode
  scalar values).  The ECMAScript host functions `encodeURIComponent` and
  `decodeURIComponent` used by `Url` are modelled per the ECMAScript
  specification on scalar values; `decodeURIComponent` can throw
  `URIError`, which is modelled by `Option` (`none` = exception).  JS
  strings containing lone surrogates (on which `encodeURIComponent`
  itself throws) are outside the model's domain.
* `String.prototype.toLowerCase` is modelled on the ASCII range (the only
  range exercised by the repository's schemes, hosts and header names).
* Reference identity (`===`) on objects: mutators return `Res.same` where
  the source executes `return this`, and `Res.new` where it constructs a
  fresh instance.  Opaque stream bodies are modelled by a `Nat` identity
  token, so body `===` is equality of tokens.  For `Request.withUrl`,
  whose guard compares the argument URL to the stored one by reference,
  the comparison result is passed explicitly as the `uIsSelf` flag.
* The JavaScript `Map` backing a `HeaderCollection` is modelled as an
  insertion-ordered association list with unique keys; `Object.entries`
  over `all()` is modelled as the identity on that list (the reordering
  JS objects apply to integer-like keys is not modelled).
-/

/-! ## JavaScript string primitives -/

/-- The character `%`, via its code point. -/
def pctChar : Char := Char.ofNat 37

/-- The character `/`. -/
def slashChar : Char := Char.ofNat 47

/-- The character `&`. -/
def ampChar : Char := Char.ofNat 38

/-- The character `=`. -/
def eqChar : Char := Char.ofNat 61

/-- ASCII lowercasing of one character, as applied by
`String.prototype.toLowerCase` to the ASCII range. -/
def charLower (c : Char) : Char :=
  if 65 ≤ c.toNat ∧ c.toNat ≤ 90 then Char.ofNat (c.toNat + 32) else c

/-- Model of `String.prototype.toLowerCase` (ASCII range). -/
def lowerStr (s : String) : String :=
  String.mk (s.data.map charLower)

/-- Truthiness of a nullable JS string (`null`/`undefined`/`""` are falsy). -/
def jsTruthy : Option String → Bool
  | some s => s ≠ ""
  | none => false

/-! ## Percent-encoding (ECMAScript `encodeURIComponent`/`decodeURIComponent`)

`encodeURIComponent` leaves the characters `A–Z a–z 0–9 - _ . ! ~ * ' ( )`
unescaped and replaces every other character by the `%XX` escapes (upper
case hexadecimal) of its UTF-8 bytes.  `decodeURIComponent` decodes every
`%XX` escape sequence, reassembling multi-byte UTF-8 sequences, and throws
`URIError` on malformed escapes or invalid UTF-8. -/

/-- The `uriUnescaped` character set of `encodeURIComponent`
(`ALPHA / DIGIT / - _ . ! ~ * ' ( )`), by code point. -/
def unreservedCp (n : Nat) : Bool :=
  decide (65 ≤ n ∧ n ≤ 90) || decide (97 ≤ n ∧ n ≤ 122) ||
  decide (48 ≤ n ∧ n ≤ 57) ||
  decide (n ∈ ([45, 95, 46, 33, 126, 42, 39, 40, 41] : List Nat))

/-- Upper-case hexadecimal digit for `n < 16`. -/
def hexDigit (n : Nat) : Char :=
  Char.ofNat (if n < 10 then 48 + n else 55 + n)

/-- Value of a hexadecimal digit character (either case), `none` otherwise. -/
def hexVal (c : Char) : Option Nat :=
  if 48 ≤ c.toNat ∧ c.toNat ≤ 57 then some (c.toNat - 48)
  else if 65 ≤ c.toNat ∧ c.toNat ≤ 70 then some (c.toNat - 55)
  else if 97 ≤ c.toNat ∧ c.toNat ≤ 102 then some (c.toNat - 87)
  else none

/-- Byte value of a two-digit escape body, `none` on a non-hex digit. -/
def hex2 (h l : Char) : Option Nat :=
  match hexVal h, hexVal l with
  | some a, some b => some (16 * a + b)
  | _, _ => none

/-- The UTF-8 bytes of a Unicode scalar value. -/
def utf8Bytes (n : Nat) : List Nat :=
  if n < 0x80 then [n]
  else if n < 0x800 then [0xC0 + n / 0x40, 0x80 + n % 0x40]
  else if n < 0x10000 then
    [0xE0 + n / 0x1000, 0x80 + n / 0x40 % 0x40, 0x80 + n % 0x40]
  else
    [0xF0 + n / 0x40000, 0x80 + n / 0x1000 % 0x40, 0x80 + n / 0x40 % 0x40,
     0x80 + n % 0x40]

/-- The three-character `%XX` escape of a byte. -/
def escBytes (b : Nat) : List Char :=
  [pctChar, hexDigit (b / 16), hexDigit (b % 16)]

/-- Model of `encodeURIComponent` on one character. -/
def encChar (c : Char) : List Char :=
  if unreservedCp c.toNat then [c]
  else (utf8Bytes c.toNat).flatMap escBytes

/-- Model of `encodeURIComponent` (never throws on scalar values). -/
def jsEncodeL : List Char → List Char
  | [] => []
  | c :: t => encChar c ++ jsEncodeL t

/-- Prepend a character under `Option`. -/
def consOpt (c : Char) (o : Option (List Char)) : Option (List Char) :=
  o.map (c :: ·)

/-- First stage of ECMAScript `Decode`: scan the string, turning every
`%XX` escape into its byte (`Sum.inr`) and passing other characters
through (`Sum.inl`); a `%` not followed by two hex digits throws
(`none`). -/
def lexEsc : List Char → Option (List (Sum Char Nat))
  | [] => some []
  | c :: cs =>
    if c = pctChar then
      match cs with
      | h :: l :: rest =>
        match hex2 h l with
        | some b => (lexEsc rest).map (Sum.inr b :: ·)
        | none => none
      | _ => none
    else (lexEsc cs).map (Sum.inl c :: ·)

mutual

/-- Second stage of ECMAScript `Decode`: reassemble escape bytes into
scalar values.  A byte below `0x80` stands alone; a UTF-8 lead byte must
be followed by the matching number of continuation *escape* bytes forming
a minimal encoding of a scalar value (no overlongs, no surrogates, at
most `0x10FFFF`); anything else throws (`none`).  Raw characters pass
through.  The helpers `deTok2`/`deTok3`/`deTok4` consume the continuation
bytes of a 2-, 3- and 4-byte group respectively. -/
def deTok : List (Sum Char Nat) → Option (List Char)
  | [] => some []
  | Sum.inl c :: t => consOpt c (deTok t)
  | Sum.inr b :: t =>
    if b < 0x80 then consOpt (Char.ofNat b) (deTok t)
    else if b < 0xC0 then none
    else if b < 0xE0 then deTok2 b t
    else if b < 0xF0 then deTok3 b t
    else if b < 0xF8 then deTok4 b t
    else none

def deTok2 (b : Nat) : List (Sum Char Nat) → Option (List Char)
  | Sum.inr b2 :: t =>
    if 0x80 ≤ b2 ∧ b2 < 0xC0 then
      if 0x80 ≤ (b - 0xC0) * 0x40 + (b2 - 0x80) then
        consOpt (Char.ofNat ((b - 0xC0) * 0x40 + (b2 - 0x80))) (deTok t)
      else none
    else none
  | _ => none

def deTok3 (b : Nat) : List (Sum Char Nat) → Option (List Char)
  | Sum.inr b2 :: Sum.inr b3 :: t =>
    if (0x80 ≤ b2 ∧ b2 < 0xC0) ∧ (0x80 ≤ b3 ∧ b3 < 0xC0) then
      if 0x800 ≤ (b - 0xE0) * 0x1000 + (b2 - 0x80) * 0x40 + (b3 - 0x80) ∧
          ¬(0xD800 ≤ (b - 0xE0) * 0x1000 + (b2 - 0x80) * 0x40 + (b3 - 0x80) ∧
            (b - 0xE0) * 0x1000 + (b2 - 0x80) * 0x40 + (b3 - 0x80) ≤
              0xDFFF) then
        consOpt
          (Char.ofNat ((b - 0xE0) * 0x1000 + (b2 - 0x80) * 0x40 + (b3 - 0x80)))
          (deTok t)
      else none
    else none
  | _ => none

def deTok4 (b : Nat) : List (Sum Char Nat) → Option (List Char)
  | Sum.inr b2 :: Sum.inr b3 :: Sum.inr b4 :: t =>
    if (0x80 ≤ b2 ∧ b2 < 0xC0) ∧ (0x80 ≤ b3 ∧ b3 < 0xC0) ∧
        (0x80 ≤ b4 ∧ b4 < 0xC0) then
      if 0x10000 ≤ (b - 0xF0) * 0x40000 + (b2 - 0x80) * 0x1000 +
          (b3 - 0x80) * 0x40 + (b4 - 0x80) ∧
          (b - 0xF0) * 0x40000 + (b2 - 0x80) * 0x1000 +
            (b3 - 0x80) * 0x40 + (b4 - 0x80) < 0x110000 then
        consOpt
          (Char.ofNat ((b - 0xF0) * 0x40000 + (b2 - 0x80) * 0x1000 +
            (b3 - 0x80) * 0x40 + (b4 - 0x80)))
          (deTok t)
      else none
    else none
  | _ => none

end

/-- Model of `decodeURIComponent` (ECMAScript `Decode` with an empty reserved
set), composed from the two stages; `none` models `URIError` (both stages
throw, and ECMAScript aborts at the first error, so failure anywhere is
overall failure in either formulation). -/
def jsDecode (l : List Char) : Option (List Char) :=
  (lexEsc l).bind deTok

/-! ## `String.prototype.split` / `Array.prototype.join` on one-character
separators -/

/-- Model of `s.split(sep)` for a single-character separator. -/
def splitOnChar (sep : Char) : List Char → List (List Char)
  | [] => [[]]
  | c :: t =>
    match splitOnChar sep t with
    | [] => [[]]
    | h :: r => if c = sep then [] :: h :: r else (c :: h) :: r

/-- Model of `parts.join(sep)` for a single-character separator. -/
def intercChar (sep : Char) : List (List Char) → List Char
  | [] => []
  | [x] => x
  | x :: y :: t => x ++ sep :: intercChar sep (y :: t)

/-- Model of `Array.prototype.map` with a fallible function (a `URIError` propagates). -/
def optMap (f : List Char → Option (List Char)) :
    List (List Char) → Option (List (List Char))
  | [] => some []
  | x :: t =>
    match f x, optMap f t with
    | some y, some r => some (y :: r)
    | _, _ => none

/-- One segment of the encode pass: `decodeURIComponent` then
`encodeURIComponent`. -/
def encSeg (seg : List Char) : Option (List Char) :=
  (jsDecode seg).map jsEncodeL

/-- Model of `Url.encodePath` on character lists:
`path.split("/").map(decodeURIComponent).map(encodeURIComponent).join("/")`. -/
def encPathL (s : List Char) : Option (List Char) :=
  (optMap encSeg (splitOnChar slashChar s)).map (intercChar slashChar)

/-- One `key=value` group of the query pass. -/
def encKV (kv : List Char) : Option (List Char) :=
  (optMap encSeg (splitOnChar eqChar kv)).map (intercChar eqChar)

/-- Model of `Url.encodeQuery` on character lists. -/
def encQueryL (s : List Char) : Option (List Char) :=
  (optMap encKV (splitOnChar ampChar s)).map (intercChar ampChar)

/-- Model of `Url.encodeFragment` on character lists. -/
def encFragL (s : List Char) : Option (List Char) :=
  encSeg s

/-- The decode stage of the path pass
(`path.split("/").map(decodeURIComponent).join("/")`). -/
def decPathL (s : List Char) : Option (List Char) :=
  (optMap jsDecode (splitOnChar slashChar s)).map (intercChar slashChar)

/-- The decode stage of one `key=value` group. -/
def decKV (kv : List Char) : Option (List Char) :=
  (optMap jsDecode (splitOnChar eqChar kv)).map (intercChar eqChar)

/-- The decode stage of the query pass. -/
def decQueryL (s : List Char) : Option (List Char) :=
  (optMap decKV (splitOnChar ampChar s)).map (intercChar ampChar)

/-! ## String-level wrappers used by `Url` -/

/-- Result of a JS mutator: `same` models `return this` (reference
identity preserved), `new` models `return new ...`. -/
inductive Res (α : Type) where
  | same : Res α
  | new : α → Res α
deriving DecidableEq, Repr

/-- Model of `Url.encodePath` (src `Url.js` line 995); `none` models a thrown `URIError`. -/
def encodePathS (s : String) : Option String :=
  (encPathL s.data).map String.mk

/-- Model of `Url.encodeQuery` (src `Url.js` line 1009). -/
def encodeQueryS (s : String) : Option String :=
  (encQueryL s.data).map String.mk

/-- Model of `Url.encodeFragment` (src `Url.js` line 1025). -/
def encodeFragmentS (s : String) : Option String :=
  (encFragL s.data).map String.mk

/-! ## `Url` (src `Url.js`) -/

/-- The stored state of a `Url` instance.  `none` models a `null` field. -/
structure Url where
  scheme : Option String
  user : Option String
  password : Option String
  host : Option String
  port : Option Int
  path : Option String
  query : Option String
  fragment : Option String
deriving DecidableEq, Repr

namespace Url

/-- The `Url` constructor (src `Url.js` line 388): lowercases scheme and
host, nulls out empty components, discards a password without a user,
`parseInt(port) || null`, and percent-encodes path/query/fragment (which
can throw `URIError`, modelled by `none`). -/
def mk? (scheme user password host : Option String) (port : Option Int)
    (path query fragment : Option String) : Option Url :=
  let scheme' : Option String :=
    match scheme with
    | some s => if s = "" then none else some (lowerStr s)
    | none => none
  let user' : Option String :=
    match user with
    | some u => if u = "" then none else some u
    | none => none
  let password' : Option String :=
    if user'.isSome then
      match password with
      | some p => if p = "" then none else some p
      | none => none
    else none
  let host' : Option String :=
    match host with
    | some h => if h = "" then none else some (lowerStr h)
    | none => none
  let port' : Option Int :=
    match port with
    | some p => if p = 0 then none else some p
    | none => none
  match path with
  | some p =>
    match if p = "" then some none else (encodePathS p).map some with
    | some path' =>
      match query with
      | some q =>
        match if q = "" then some none else (encodeQueryS q).map some with
        | some query' =>
          match fragment with
          | some f =>
            match if f = "" then some none else
                (encodeFragmentS f).map some with
            | some fragment' =>
              some ⟨scheme', user', password', host', port', path', query',
                fragment'⟩
            | none => none
          | none =>
            some ⟨scheme', user', password', host', port', path', query', none⟩
        | none => none
      | none =>
        match fragment with
        | some f =>
          match if f = "" then some none else (encodeFragmentS f).map some with
          | some fragment' =>
            some ⟨scheme', user', password', host', port', path', none,
              fragment'⟩
          | none => none
        | none =>
          some ⟨scheme', user', password', host', port', path', none, none⟩
    | none => none
  | none =>
    match query with
    | some q =>
      match if q = "" then some none else (encodeQueryS q).map some with
      | some query' =>
        match fragment with
        | some f =>
          match if f = "" then some none else (encodeFragmentS f).map some with
          | some fragment' =>
            some ⟨scheme', user', password', host', port', none, query',
              fragment'⟩
          | none => none
        | none =>
          some ⟨scheme', user', password', host', port', none, query', none⟩
      | none => none
    | none =>
      match fragment with
      | some f =>
        match if f = "" then some none else (encodeFragmentS f).map some with
        | some fragment' =>
          some ⟨scheme', user', password', host', port', none, none, fragment'⟩
        | none => none
      | none =>
        some ⟨scheme', user', password', host', port', none, none, none⟩

/-- Model of `getScheme` (src `Url.js` line 469). -/
def getScheme (u : Url) : String := u.scheme.getD ""

/-- Model of `getHost` (src `Url.js` line 556). -/
def getHost (u : Url) : String := u.host.getD ""

/-- Model of `getPath` (src `Url.js` line 608). -/
def getPath (u : Url) : String := u.path.getD ""

/-- Model of `getQuery` (src `Url.js` line 633). -/
def getQuery (u : Url) : String := u.query.getD ""

/-- Model of `getFragment` (src `Url.js` line 654). -/
def getFragment (u : Url) : String := u.fragment.getD ""

/-- Model of `isStandardPort` (src `Url.js` line 1038). -/
def isStandardPort (u : Url) (port : Int) : Bool :=
  match u.scheme with
  | some s =>
    if s = "http" then port = 80
    else if s = "https" then port = 443
    else false
  | none => false

/-- Model of `getPort` (src `Url.js` line 576): `this.port && !this.isStandardPort(this.port) ? this.port : null`. -/
def getPort (u : Url) : Option Int :=
  match u.port with
  | some p => if p ≠ 0 ∧ ¬u.isStandardPort p then some p else none
  | none => none

/-- Model of `getUserInfo` (src `Url.js` line 530). -/
def getUserInfo (u : Url) : String :=
  match u.user with
  | none => ""
  | some us =>
    match u.password with
    | some pw => if pw = "" then us else us ++ ":" ++ pw
    | none => us

/-- Model of `getAuthority` (src `Url.js` line 492). -/
def getAuthority (u : Url) : String :=
  let host := u.getHost
  if host = "" then ""
  else
    let userInfo := u.getUserInfo
    let auth := if userInfo = "" then host else userInfo ++ "@" ++ host
    match u.getPort with
    | some p => if p = 0 then auth else auth ++ ":" ++ toString p
    | none => auth

/-- Model of `withScheme` (src `Url.js` line 674).  The identity guard runs before
the constructor, so `some Res.same` needs no re-encoding; `none` models a
`URIError` raised while re-encoding path/query/fragment in `new Url`. -/
def withScheme (u : Url) (scheme : String) : Option (Res Url) :=
  if (scheme = "" ∧ ¬jsTruthy u.scheme) ∨ some (lowerStr scheme) = u.scheme
  then some Res.same
  else (mk? (if scheme = "" then none else some (lowerStr scheme)) u.user
    u.password u.host u.port u.path u.query u.fragment).map Res.new

/-- Model of `withUserInfo` (src `Url.js` line 709).  `password = none` models an
omitted or `null` argument. -/
def withUserInfo (u : Url) (user : String) (password : Option String) :
    Option (Res Url) :=
  if (user = "" ∧ ¬jsTruthy u.user) ∨
      (some user = u.user ∧ password = u.password)
  then some Res.same
  else (mk? u.scheme (if user = "" then none else some user)
    (if user = "" then none else
      match password with
      | some p => if p = "" then none else some p
      | none => none)
    u.host u.port u.path u.query u.fragment).map Res.new

/-- Model of `withHost` (src `Url.js` line 742). -/
def withHost (u : Url) (host : String) : Option (Res Url) :=
  if (host = "" ∧ ¬jsTruthy u.host) ∨ some (lowerStr host) = u.host
  then some Res.same
  else (mk? u.scheme u.user u.password
    (if host = "" then none else some (lowerStr host))
    u.port u.path u.query u.fragment).map Res.new

/-- Model of `withPort` (src `Url.js` line 780).  The source performs no range
validation whatsoever: any integer distinct from the stored port is passed
straight to the constructor, which stores `parseInt(port) || null`. -/
def withPort (u : Url) (port : Option Int) : Option (Res Url) :=
  if port = u.port then some Res.same
  else (mk? u.scheme u.user u.password u.host port u.path u.query
    u.fragment).map Res.new

/-- Model of `withPath` (src `Url.js` line 820): the argument is re-encoded before
the identity guard, so a malformed escape throws even on a no-op call. -/
def withPath (u : Url) (path : String) : Option (Res Url) :=
  match encodePathS path with
  | none => none
  | some encodedPath =>
    if (encodedPath = "" ∧ ¬jsTruthy u.path) ∨ some encodedPath = u.path
    then some Res.same
    else (mk? u.scheme u.user u.password u.host u.port
      (if encodedPath = "" then none else some encodedPath)
      u.query u.fragment).map Res.new

/-- Model of `withQuery` (src `Url.js` line 858). -/
def withQuery (u : Url) (query : String) : Option (Res Url) :=
  match encodeQueryS query with
  | none => none
  | some encodedQuery =>
    if (encodedQuery = "" ∧ ¬jsTruthy u.query) ∨ some encodedQuery = u.query
    then some Res.same
    else (mk? u.scheme u.user u.password u.host u.port u.path
      (if encodedQuery = "" then none else some encodedQuery)
      u.fragment).map Res.new

/-- Model of `withFragment` (src `Url.js` line 895). -/
def withFragment (u : Url) (fragment : String) : Option (Res Url) :=
  match encodeFragmentS fragment with
  | none => none
  | some encodedFragment =>
    if (encodedFragment = "" ∧ ¬jsTruthy u.fragment) ∨
        some encodedFragment = u.fragment
    then some Res.same
    else (mk? u.scheme u.user u.password u.host u.port u.path u.query
      (if encodedFragment = "" then none else some encodedFragment)).map
      Res.new

/-- Drop the leading slashes of a path (`path.replace(/^[\/]+/, "")`). -/
def dropLeadingSlashes (s : String) : String :=
  String.mk (s.data.dropWhile (· = slashChar))

/-- Model of the `charAt(1)` comparison against `"/"`. -/
def secondIsSlash (s : String) : Bool :=
  match s.data with
  | _ :: c :: _ => c = slashChar
  | _ => false

/-- Whether the path is rootless (`path.indexOf("/") !== 0`). -/
def rootless (s : String) : Bool :=
  match s.data with
  | c :: _ => c ≠ slashChar
  | [] => true

/-- Model of `toString` (src `Url.js` line 941), including both path adjustments
exactly as coded: the second adjustment triggers on `path.charAt(1) === "/"`
with no authority, regardless of the first character. -/
def toString (u : Url) : String :=
  let url := if u.getScheme = "" then "" else u.getScheme ++ ":"
  let authority := u.getAuthority
  let url := if authority = "" then url else url ++ "//" ++ authority
  let path := u.getPath
  let path :=
    if path = "" then path
    else
      let path := if rootless path ∧ authority ≠ "" then "/" ++ path else path
      if secondIsSlash path ∧ authority = "" then
        "/" ++ dropLeadingSlashes path
      else path
  let url := url ++ path
  let url := if u.getQuery = "" then url else url ++ "?" ++ u.getQuery
  if u.getFragment = "" then url else url ++ "#" ++ u.getFragment

end Url

/-! ## `HeaderCollection` (src `HeaderCollection.js`)

The backing `Map` is an insertion-ordered association list from stored
header name to value list.  `Map.prototype.set` updates an existing exact
key in place (keeping its position) or appends a new entry;
`Map.prototype.delete` removes the exact key. -/

/-- The backing store of a `HeaderCollection`. -/
abbrev HeaderCollection : Type := List (String × List String)

/-- Model of `Array.prototype.join(",")`. -/
def joinComma : List String → String
  | [] => ""
  | [x] => x
  | x :: y :: t => x ++ "," ++ joinComma (y :: t)

/-- Whether the keys of the backing map are pairwise distinct (a JS `Map`
guarantees this for its reachable states). -/
def KeysNodup (m : List (String × List String)) : Prop :=
  (m.map (fun p => p.1)).Nodup

instance (m : List (String × List String)) : Decidable (KeysNodup m) := by
  unfold KeysNodup
  infer_instance

/-- Model of `Map.prototype.has` (exact key). -/
def mapHas (m : HeaderCollection) (k : String) : Bool :=
  m.any (·.1 = k)

/-- Model of `Map.prototype.get` (exact key). -/
def mapGet (m : HeaderCollection) (k : String) : Option (List String) :=
  (m.find? (·.1 = k)).map (·.2)

/-- Model of `Map.prototype.set` (exact key): update in place or append. -/
def mapSet (m : HeaderCollection) (k : String) (v : List String) :
    HeaderCollection :=
  if mapHas m k then m.map (fun p => if p.1 = k then (k, v) else p)
  else m ++ [(k, v)]

/-- Model of `Map.prototype.delete` (exact key). -/
def mapDelete (m : HeaderCollection) (k : String) : HeaderCollection :=
  m.filter (·.1 ≠ k)

/-- Model of `new Map(entries)`: insert every entry in order (an exact duplicate
key keeps its first position with the last value). -/
def mkMap (entries : List (String × List String)) : HeaderCollection :=
  entries.foldl (fun m e => mapSet m e.1 e.2) []

/-- The stored keys of the backing map, in order. -/
def mapKeys (m : HeaderCollection) : List String :=
  m.map (·.1)

/-- Model of `headerKey` (src `HeaderCollection.js` line 108):
`Array.from(this.headers.keys()).find(key => key.toLowerCase() === lowerCaseName) || name`.
The `|| name` acts on the found key's truthiness, so an empty found key
falls back to `name` (in that case they coincide). -/
def headerKey (m : HeaderCollection) (name : String) : String :=
  match (mapKeys m).find? (fun k => lowerStr k = lowerStr name) with
  | some k => if k = "" then name else k
  | none => name

/-- Model of `has` (src `HeaderCollection.js` line 46). -/
def hcHas (m : HeaderCollection) (name : String) : Bool :=
  mapHas m (headerKey m name)

/-- Model of `get` (src `HeaderCollection.js` line 57): `... || []`. -/
def hcGet (m : HeaderCollection) (name : String) : List String :=
  (mapGet m (headerKey m name)).getD []

/-- Model of `set` (src `HeaderCollection.js` line 68).  The value argument is
already a list (`Array.isArray(value) ? value : [value]`). -/
def hcSet (m : HeaderCollection) (name : String) (value : List String) :
    HeaderCollection :=
  mapSet m (headerKey m name) value

/-- Model of `add` (src `HeaderCollection.js` line 84). -/
def hcAdd (m : HeaderCollection) (name : String) (value : List String) :
    HeaderCollection :=
  mapSet m (headerKey m name) ((mapGet m (headerKey m name)).getD [] ++ value)

/-- Model of `remove` (src `HeaderCollection.js` line 97). -/
def hcRemove (m : HeaderCollection) (name : String) : HeaderCollection :=
  mapDelete m (headerKey m name)

/-- One mutating call on a `HeaderCollection`. -/
inductive HOp where
  | set (name : String) (value : List String)
  | add (name : String) (value : List String)
  | remove (name : String)

/-- Apply one call. -/
def applyHOp (m : HeaderCollection) : HOp → HeaderCollection
  | HOp.set n v => hcSet m n v
  | HOp.add n v => hcAdd m n v
  | HOp.remove n => hcRemove m n

/-- Apply a finite sequence of calls in order. -/
def applyHOps (m : HeaderCollection) (ops : List HOp) : HeaderCollection :=
  ops.foldl applyHOp m

/-- The claimed store invariant: no two stored entries have
case-insensitively equal names. -/
def HcInv (m : HeaderCollection) : Prop :=
  ((mapKeys m).map lowerStr).Nodup

instance (m : HeaderCollection) : Decidable (HcInv m) := by
  unfold HcInv
  infer_instance

/-! ## `Request` and `Response` (src `Message.js`, `Request.js`,
`Response.js`)

`Message` state is inlined into each concrete subclass.  Stream bodies are
opaque: a `Nat` token models the object reference. -/

/-- The stored state of a `Request` instance. -/
structure Request where
  protocolVersion : String
  headers : HeaderCollection
  body : Nat
  method : String
  url : Url
  target : Option String
deriving DecidableEq

/-- The stored state of a `Response` instance.  `reasonPhrase` holds the
`_reasonPhrase` field (`none` models `null`/`undefined`). -/
structure Response where
  protocolVersion : String
  headers : HeaderCollection
  body : Nat
  statusCode : Nat
  reasonPhrase : Option String
deriving DecidableEq

namespace Request

/-- The `Request` constructor (src `Request.js` line 43).  When
`shouldAddHostHeader` holds, the collection has no `Host` entry and the
URL's host is non-empty, the constructor calls `headers.set` on the very
collection the caller passed in (no copy).  The second component of the
result is that collection as the caller observes it after the call; the
stored `headers` field aliases it. -/
def construct (method : String) (url : Url) (protocolVersion : String)
    (headers : HeaderCollection) (body : Nat) (target : Option String)
    (shouldAddHostHeader : Bool) : Request × HeaderCollection :=
  let headers :=
    if shouldAddHostHeader ∧ ¬hcHas headers "Host" ∧ url.getHost ≠ "" then
      hcSet headers "Host" [url.getHost]
    else headers
  (⟨protocolVersion, headers, body, method, url, target⟩, headers)

/-- Model of `getHeaders()` / the `headers` getter: `this._headers.all()` as an
entry list. -/
def getHeaders (r : Request) : HeaderCollection := r.headers

/-- Model of `getHeader(name)`. -/
def getHeader (r : Request) (name : String) : List String :=
  hcGet r.headers name

/-- Model of `getHeaderLine(name)`: values joined with `","`. -/
def getHeaderLine (r : Request) (name : String) : String :=
  joinComma (r.getHeader name)

/-- Model of `hasHeader(name)`. -/
def hasHeader (r : Request) (name : String) : Bool :=
  hcHas r.headers name

/-- Model of `createMessage` as overridden by `Request` (src `Request.js` line 263):
`new Request(this.method, this.url, protocolVersion, headers, body, this.reasonPhrase, this.target)`.
A `Request` has no `reasonPhrase` property, so `undefined` (`none`) is
passed as the `target` argument, and the stored target lands in the
`shouldAddHostHeader` position, where only its truthiness matters. -/
def createMessage (r : Request) (protocolVersion : String)
    (headers : HeaderCollection) (body : Nat) : Request :=
  (construct r.method r.url protocolVersion headers body none
    (jsTruthy r.target)).1

/-- Model of `withProtocolVersion` (src `Message.js` line 135). -/
def withProtocolVersion (r : Request) (protocolVersion : String) :
    Res Request :=
  if protocolVersion = r.protocolVersion then Res.same
  else Res.new (r.createMessage protocolVersion r.headers r.body)

/-- Model of `withHeader` (src `Message.js` line 237).  The value argument is
already a list. -/
def withHeader (r : Request) (name : String) (value : List String) :
    Res Request :=
  if joinComma value = r.getHeaderLine name then Res.same
  else
    Res.new (r.createMessage r.protocolVersion
      (hcSet (mkMap r.getHeaders) name value) r.body)

/-- Model of `withAddedHeader` (src `Message.js` line 271): no identity guard. -/
def withAddedHeader (r : Request) (name : String) (value : List String) :
    Res Request :=
  Res.new (r.createMessage r.protocolVersion
    (hcAdd (mkMap r.getHeaders) name value) r.body)

/-- Model of `withoutHeader` (src `Message.js` line 295). -/
def withoutHeader (r : Request) (name : String) : Res Request :=
  if ¬r.hasHeader name then Res.same
  else
    Res.new (r.createMessage r.protocolVersion
      (hcRemove (mkMap r.getHeaders) name) r.body)

/-- Model of `withBody` (src `Message.js` line 334). -/
def withBody (r : Request) (body : Nat) : Res Request :=
  if body = r.body then Res.same
  else Res.new (r.createMessage r.protocolVersion r.headers body)

/-- Model of `withMethod` (src `Request.js` line 109): constructs a `Request`
directly (six arguments, so `shouldAddHostHeader` defaults to `true`). -/
def withMethod (r : Request) (method : String) : Res Request :=
  if method = r.method then Res.same
  else
    Res.new (construct method r.url r.protocolVersion r.headers r.body
      r.target true).1

/-- Model of `withUrl` (src `Request.js` line 168).  `uIsSelf` is the result of the
reference comparison `url === this.url` (reference equality implies value
equality of the model states). -/
def withUrl (r : Request) (url : Url) (uIsSelf : Bool)
    (preserveHost : Bool) : Res Request :=
  let shouldUpdateHostHeader :=
    url.getHost ≠ r.getHeaderLine "Host" ∧ ¬preserveHost
  if uIsSelf ∧ ¬shouldUpdateHostHeader then Res.same
  else
    let headers := mkMap r.getHeaders
    let headers :=
      if shouldUpdateHostHeader then hcSet headers "Host" [url.getHost]
      else headers
    Res.new (construct r.method url r.protocolVersion headers r.body
      r.target true).1

/-- Model of `getRequestTarget` (src `Request.js` line 209). -/
def getRequestTarget (r : Request) : String :=
  if jsTruthy r.target then r.target.getD ""
  else
    let target := r.url.getPath
    if r.url.getQuery = "" then target else target ++ "?" ++ r.url.getQuery

/-- Model of `withRequestTarget` (src `Request.js` line 242). -/
def withRequestTarget (r : Request) (requestTarget : String) : Res Request :=
  if (requestTarget = "" ∧ ¬jsTruthy r.target) ∨ some requestTarget = r.target
  then Res.same
  else
    Res.new (construct r.method r.url r.protocolVersion r.headers r.body
      (some requestTarget) true).1

end Request

namespace Response

/-- Model of `x || y` on nullable JS strings (`""`, `null` and `undefined` are
falsy). -/
def jsOrStr (x y : Option String) : Option String :=
  match x with
  | some s => if s = "" then y else some s
  | none => y

/-- Model of `createMessage` as overridden by `Response` (src `Response.js`
line 129). -/
def createMessage (resp : Response) (protocolVersion : String)
    (headers : HeaderCollection) (body : Nat) : Response :=
  ⟨protocolVersion, headers, body, resp.statusCode, resp.reasonPhrase⟩

/-- Model of `withProtocolVersion` (src `Message.js` line 135) for a `Response`. -/
def withProtocolVersion (resp : Response) (protocolVersion : String) :
    Res Response :=
  if protocolVersion = resp.protocolVersion then Res.same
  else Res.new (resp.createMessage protocolVersion resp.headers resp.body)

/-- Model of `withStatus` (src `Response.js` line 112): the identity guard compares
the phrase argument against the stored `_reasonPhrase` with `===`, and the
new instance stores `reasonPhrase || this._reasonPhrase`, so any falsy
phrase argument (omitted or `""`) falls back to the stored phrase. -/
def withStatus (resp : Response) (code : Nat)
    (reasonPhrase : Option String) : Res Response :=
  if code = resp.statusCode ∧ reasonPhrase = resp.reasonPhrase then Res.same
  else
    Res.new ⟨resp.protocolVersion, resp.headers, resp.body, code,
      jsOrStr reasonPhrase resp.reasonPhrase⟩

end Response

/-! ## Example values used by the claim theorems -/

/-- A URL with no components. -/
def urlEmpty : Url := ⟨none, none, none, none, none, none, none, none⟩

/-- A URL whose only component is the path `/path`. -/
def urlPathOnly : Url := ⟨none, none, none, none, none, some "/path", none, none⟩

/-- A URL whose only component is the host `example.com`. -/
def urlHostOnly : Url :=
  ⟨none, none, none, some "example.com", none, none, none, none⟩

/-- A request with explicit target `*` over `urlPathOnly`. -/
def reqStar : Request :=
  (Request.construct "GET" urlPathOnly "1.1" [] 0 (some "*") true).1

/-- A request with no Host header, no explicit target, over `urlEmpty`. -/
def reqBare : Request :=
  (Request.construct "GET" urlEmpty "1.1" [] 0 none true).1

/-- A fully populated, constructor-normalized URL. -/
def urlFull : Url :=
  ⟨some "http", some "alice", some "pw", some "example.com", some 8080,
   some "/path", some "key=value", some "frag"⟩

/-- A request over `urlFull`, whose Host header was synthesized from the
URL by the constructor. -/
def reqFull : Request :=
  (Request.construct "GET" urlFull "1.1" [] 0 none true).1

/-- A response with no explicit reason phrase. -/
def respPlain : Response := ⟨"1.1", [], 0, 200, none⟩

/-- A response constructed with the explicit reason phrase `Custom P`. -/
def respCustom : Response := ⟨"1.1", [], 0, 200, some "Custom P"⟩

/-- The stored fields of `new Url("http", ..., "example.com", ...)`. -/
def urlHttpHost : Url :=
  ⟨some "http", none, none, some "example.com", none, none, none, none⟩

/-- Copy of `urlHttpHost` with the out-of-range port 70000 stored. -/
def urlPort70000 : Url := { urlHttpHost with port := some 70000 }

/-- A `HeaderCollection` built by the public constructor from two entries
whose names differ only in case. -/
def hcTwoCasings : HeaderCollection :=
  mkMap [("Host", ["a"]), ("host", ["b"])]

/-- A well-formed single-entry collection. -/
def hcHost : HeaderCollection := [("Host", ["a"])]

/-- The token stream of one encoded character. -/
def charToks (c : Char) : List (Sum Char Nat) :=
  if unreservedCp c.toNat then [Sum.inl c]
  else (utf8Bytes c.toNat).map Sum.inr

/-- The token stream of an encoded string. -/
def strToks : List Char → List (Sum Char Nat)
  | [] => []
  | c :: t => charToks c ++ strToks t

/-- Model of the decode stage of `Url.encodePath`
(`path.split("/").map(decodeURIComponent).join("/")`). -/
def decodePathS (s : String) : Option String :=
  (decPathL s.data).map String.mk

/-- Model of the decode stage of `Url.encodeQuery`. -/
def decodeQueryS (s : String) : Option String :=
  (decQueryL s.data).map String.mk

/-- Model of the decode stage of `Url.encodeFragment`
(plain `decodeURIComponent`). -/
def decodeFragmentS (s : String) : Option String :=
  (jsDecode s.data).map String.mk

/-- The request produced by `reqStar.withProtocolVersion("2.0")`. -/
def reqStarAfter : Request :=
  { protocolVersion := "2.0", headers := [], body := 0, method := "GET",
    url := urlPathOnly, target := none }

/-- The response produced by `respCustom.withStatus(404, "")`. -/
def respCustom404 : Response :=
  { protocolVersion := "1.1", headers := [], body := 0, statusCode := 404,
    reasonPhrase := some "Custom P" }

/-- The request produced by `reqBare.withUrl(urlHostOnly, true)` — note
the constructor has synthesized a `Host` header. -/
def reqBareWithHost : Request :=
  { protocolVersion := "1.1", headers := [("Host", ["example.com"])],
    body := 0, method := "GET", url := urlHostOnly, target := none }

/-- Whether an optional string field is stored lowercased. -/
def optLower (o : Option String) : Prop :=
  o.map lowerStr = o

instance (o : Option String) : Decidable (optLower o) := by
  unfold optLower
  infer_instance

/-- Whether an optional string field is a fixed point of a pass. -/
def optFixed (f : String → Option String) (o : Option String) : Prop :=
  o.bind f = o

instance (f : String → Option String) (o : Option String) :
    Decidable (optFixed f o) := by
  unfold optFixed
  infer_instance

/-- The normalizations the `Url` constructor guarantees for every stored
instance: scheme and host lowercased, path/query/fragment fixed points of
their encode passes (by idempotence). -/
def Url.Canonical (u : Url) : Prop :=
  optLower u.scheme ∧ optLower u.host ∧ optFixed encodePathS u.path ∧
  optFixed encodeQueryS u.query ∧ optFixed encodeFragmentS u.fragment

instance (u : Url) : Decidable (Url.Canonical u) := by
  unfold Url.Canonical
  infer_instance

/-! ## Character and hexadecimal infrastructure -/

/-- A scalar value is below `0x110000`. -/
theorem charToNat_lt (c : Char) : c.toNat < 0x110000 := by
  have h := c.valid
  simp only [Char.toNat] at *
  rcases h with h | h <;> omega

/-- A scalar value is not a surrogate. -/
theorem charToNat_not_surrogate (c : Char) :
    ¬(0xD800 ≤ c.toNat ∧ c.toNat ≤ 0xDFFF) := by
  have h := c.valid
  simp only [Char.toNat] at *
  rcases h with h | h <;> omega

/-- Lemma: `Char.ofNat` inverts `Char.toNat` on valid code points. -/
theorem toNat_ofNat_valid {n : Nat} (h : n.isValidChar) :
    (Char.ofNat n).toNat = n := by
  simp only [Char.ofNat, h, dif_pos, Char.ofNatAux, Char.toNat]
  simp [UInt32.toNat, BitVec.toNat_ofNatLt]

/-- Characters with equal code points are equal. -/
theorem char_toNat_inj {a b : Char} (h : a.toNat = b.toNat) : a = b := by
  apply Char.ext
  apply UInt32.ext
  simpa [Char.toNat, UInt32.toNat] using h

/-- Lemma: `Char.ofNat (c.toNat) = c`. -/
theorem ofNat_toNat (c : Char) : Char.ofNat c.toNat = c := by
  apply char_toNat_inj
  apply toNat_ofNat_valid
  have h := c.valid
  simpa [Char.toNat] using h

/-- Code points below the surrogate range are valid. -/
theorem isValidChar_of_lt {n : Nat} (h : n < 0xD800) : n.isValidChar :=
  Or.inl h

/-- Lemma: `hexVal` recovers the digit for `n < 16`. -/
theorem hexVal_hexDigit {n : Nat} (h : n < 16) :
    hexVal (hexDigit n) = some n := by
  interval_cases n <;> decide

/-- Lemma: `hex2` recovers the byte of its two hex digits for `b < 256`. -/
theorem hex2_escDigits {b : Nat} (h : b < 256) :
    hex2 (hexDigit (b / 16)) (hexDigit (b % 16)) = some b := by
  have h1 : b / 16 < 16 := by omega
  have h2 : b % 16 < 16 := by omega
  rw [hex2, hexVal_hexDigit h1, hexVal_hexDigit h2]
  show some (16 * (b / 16) + b % 16) = some b
  exact congrArg some (by omega)

/-- The hex digit characters are not `%`, `/`, `&` or `=`. -/
theorem hexDigit_ne {n : Nat} (h : n < 16) :
    hexDigit n ≠ pctChar ∧ hexDigit n ≠ slashChar ∧ hexDigit n ≠ ampChar ∧
    hexDigit n ≠ eqChar := by
  interval_cases n <;> decide

/-! ## Decode/encode step lemmas -/

/-- A non-`%` character lexes to a raw token. -/
theorem lexEsc_raw {c : Char} (h : c ≠ pctChar) (cs : List Char) :
    lexEsc (c :: cs) = (lexEsc cs).map (Sum.inl c :: ·) := by
  conv_lhs => rw [lexEsc.eq_def]
  dsimp only []
  rw [if_neg h]

/-- An escape lexes to its byte token. -/
theorem lexEsc_esc {b : Nat} (h : b < 256) (rest : List Char) :
    lexEsc (escBytes b ++ rest) = (lexEsc rest).map (Sum.inr b :: ·) := by
  have h1 : b / 16 < 16 := by omega
  have h2 : b % 16 < 16 := by omega
  show lexEsc (pctChar :: hexDigit (b / 16) :: hexDigit (b % 16) :: rest) = _
  conv_lhs => rw [lexEsc.eq_def]
  dsimp only []
  rw [if_pos rfl]
  show (match hex2 (hexDigit (b / 16)) (hexDigit (b % 16)) with
    | some b => (lexEsc rest).map (Sum.inr b :: ·)
    | none => none) = _
  rw [hex2_escDigits h]

/-- A raw token passes through `deTok`. -/
theorem deTok_raw (c : Char) (t : List (Sum Char Nat)) :
    deTok (Sum.inl c :: t) = consOpt c (deTok t) := by
  conv_lhs => rw [deTok.eq_def]

/-- Computation of `deTok` on a single-byte token. -/
theorem deTok_b1 {b : Nat} (hb : b < 0x80) (t : List (Sum Char Nat)) :
    deTok (Sum.inr b :: t) = consOpt (Char.ofNat b) (deTok t) := by
  conv_lhs => rw [deTok.eq_def]
  dsimp only []
  rw [if_pos hb]

/-- Computation of `deTok` on a two-byte token group. -/
theorem deTok_b2 {b b2 : Nat} (hb : 0xC0 ≤ b ∧ b < 0xE0)
    (hb2 : 0x80 ≤ b2 ∧ b2 < 0xC0)
    (hv : 0x80 ≤ (b - 0xC0) * 0x40 + (b2 - 0x80)) (t : List (Sum Char Nat)) :
    deTok (Sum.inr b :: Sum.inr b2 :: t) =
      consOpt (Char.ofNat ((b - 0xC0) * 0x40 + (b2 - 0x80))) (deTok t) := by
  conv_lhs => rw [deTok.eq_def]
  dsimp only []
  rw [if_neg (by omega), if_neg (by omega), if_pos (by omega)]
  conv_lhs => rw [deTok2.eq_def]
  dsimp only []
  rw [if_pos hb2, if_pos hv]

/-- Computation of `deTok` on a three-byte token group. -/
theorem deTok_b3 {b b2 b3 : Nat} (hb : 0xE0 ≤ b ∧ b < 0xF0)
    (hb2 : 0x80 ≤ b2 ∧ b2 < 0xC0) (hb3 : 0x80 ≤ b3 ∧ b3 < 0xC0)
    (hv : 0x800 ≤ (b - 0xE0) * 0x1000 + (b2 - 0x80) * 0x40 + (b3 - 0x80) ∧
      ¬(0xD800 ≤ (b - 0xE0) * 0x1000 + (b2 - 0x80) * 0x40 + (b3 - 0x80) ∧
        (b - 0xE0) * 0x1000 + (b2 - 0x80) * 0x40 + (b3 - 0x80) ≤ 0xDFFF))
    (t : List (Sum Char Nat)) :
    deTok (Sum.inr b :: Sum.inr b2 :: Sum.inr b3 :: t) =
      consOpt
        (Char.ofNat ((b - 0xE0) * 0x1000 + (b2 - 0x80) * 0x40 + (b3 - 0x80)))
        (deTok t) := by
  conv_lhs => rw [deTok.eq_def]
  dsimp only []
  rw [if_neg (by omega), if_neg (by omega), if_neg (by omega),
    if_pos (by omega)]
  conv_lhs => rw [deTok3.eq_def]
  dsimp only []
  rw [if_pos ⟨hb2, hb3⟩, if_pos hv]

/-- Computation of `deTok` on a four-byte token group. -/
theorem deTok_b4 {b b2 b3 b4 : Nat} (hb : 0xF0 ≤ b ∧ b < 0xF8)
    (hb2 : 0x80 ≤ b2 ∧ b2 < 0xC0) (hb3 : 0x80 ≤ b3 ∧ b3 < 0xC0)
    (hb4 : 0x80 ≤ b4 ∧ b4 < 0xC0)
    (hv : 0x10000 ≤ (b - 0xF0) * 0x40000 + (b2 - 0x80) * 0x1000 +
        (b3 - 0x80) * 0x40 + (b4 - 0x80) ∧
      (b - 0xF0) * 0x40000 + (b2 - 0x80) * 0x1000 + (b3 - 0x80) * 0x40 +
        (b4 - 0x80) < 0x110000)
    (t : List (Sum Char Nat)) :
    deTok (Sum.inr b :: Sum.inr b2 :: Sum.inr b3 :: Sum.inr b4 :: t) =
      consOpt
        (Char.ofNat ((b - 0xF0) * 0x40000 + (b2 - 0x80) * 0x1000 +
          (b3 - 0x80) * 0x40 + (b4 - 0x80)))
        (deTok t) := by
  conv_lhs => rw [deTok.eq_def]
  dsimp only []
  rw [if_neg (by omega), if_neg (by omega), if_neg (by omega),
    if_neg (by omega), if_pos (by omega)]
  conv_lhs => rw [deTok4.eq_def]
  dsimp only []
  rw [if_pos ⟨hb2, hb3, hb4⟩, if_pos hv]

/-- An unreserved character is not `%`. -/
theorem unreservedCp_ne_pct {c : Char} (h : unreservedCp c.toNat = true) :
    c ≠ pctChar := by
  intro he
  rw [he] at h
  revert h
  decide

/-- UTF-8 bytes of a scalar value are bytes. -/
theorem utf8Bytes_lt256 {n : Nat} (hn : n < 0x110000) :
    ∀ b ∈ utf8Bytes n, b < 256 := by
  intro b hb
  rw [utf8Bytes] at hb
  by_cases h1 : n < 0x80
  · rw [if_pos h1] at hb
    simp only [List.mem_singleton] at hb
    omega
  · rw [if_neg h1] at hb
    by_cases h2 : n < 0x800
    · rw [if_pos h2] at hb
      simp only [List.mem_cons, List.mem_singleton, List.not_mem_nil,
        or_false] at hb
      rcases hb with hb | hb <;> omega
    · rw [if_neg h2] at hb
      by_cases h3 : n < 0x10000
      · rw [if_pos h3] at hb
        simp only [List.mem_cons, List.not_mem_nil, or_false] at hb
        rcases hb with hb | hb | hb <;> omega
      · rw [if_neg h3] at hb
        simp only [List.mem_cons, List.not_mem_nil, or_false] at hb
        rcases hb with hb | hb | hb | hb <;> omega

/-- Lexing an encoded string prepends its token stream. -/
theorem lexEsc_enc (s t : List Char) :
    lexEsc (jsEncodeL s ++ t) = (lexEsc t).map (strToks s ++ ·) := by
  induction s with
  | nil =>
    show lexEsc t = (lexEsc t).map ([] ++ ·)
    simp
  | cons c s ih =>
    show lexEsc ((encChar c ++ jsEncodeL s) ++ t) = _
    rw [List.append_assoc]
    by_cases hc : unreservedCp c.toNat
    · rw [encChar, if_pos hc]
      show lexEsc (c :: (jsEncodeL s ++ t)) = _
      rw [lexEsc_raw (unreservedCp_ne_pct hc), ih, Option.map_map]
      refine congrArg (fun f => Option.map f (lexEsc t)) ?_
      funext x
      show Sum.inl c :: (strToks s ++ x) = strToks (c :: s) ++ x
      rw [strToks, charToks, if_pos hc]
      simp
    · rw [encChar, if_neg hc]
      have hlt : c.toNat < 0x110000 := charToNat_lt c
      rw [utf8Bytes]
      by_cases h1 : c.toNat < 0x80
      · rw [if_pos h1]
        show lexEsc (escBytes c.toNat ++ (jsEncodeL s ++ t)) = _
        rw [lexEsc_esc (by omega), ih, Option.map_map]
        refine congrArg (fun f => Option.map f (lexEsc t)) ?_
        funext x
        show Sum.inr c.toNat :: (strToks s ++ x) = strToks (c :: s) ++ x
        rw [strToks, charToks, if_neg hc, utf8Bytes, if_pos h1]
        simp
      · rw [if_neg h1]
        by_cases h2 : c.toNat < 0x800
        · rw [if_pos h2]
          show lexEsc
              (escBytes (0xC0 + c.toNat / 0x40) ++
                (escBytes (0x80 + c.toNat % 0x40) ++ (jsEncodeL s ++ t))) = _
          rw [lexEsc_esc (by omega), lexEsc_esc (by omega), ih,
            Option.map_map, Option.map_map]
          refine congrArg (fun f => Option.map f (lexEsc t)) ?_
          funext x
          show Sum.inr (0xC0 + c.toNat / 0x40) ::
            Sum.inr (0x80 + c.toNat % 0x40) :: (strToks s ++ x) =
            strToks (c :: s) ++ x
          rw [strToks, charToks, if_neg hc, utf8Bytes, if_neg h1, if_pos h2]
          simp
        · rw [if_neg h2]
          by_cases h3 : c.toNat < 0x10000
          · rw [if_pos h3]
            show lexEsc
                (escBytes (0xE0 + c.toNat / 0x1000) ++
                  (escBytes (0x80 + c.toNat / 0x40 % 0x40) ++
                    (escBytes (0x80 + c.toNat % 0x40) ++
                      (jsEncodeL s ++ t)))) = _
            rw [lexEsc_esc (by omega), lexEsc_esc (by omega),
              lexEsc_esc (by omega), ih, Option.map_map, Option.map_map,
              Option.map_map]
            refine congrArg (fun f => Option.map f (lexEsc t)) ?_
            funext x
            show Sum.inr (0xE0 + c.toNat / 0x1000) ::
              Sum.inr (0x80 + c.toNat / 0x40 % 0x40) ::
              Sum.inr (0x80 + c.toNat % 0x40) :: (strToks s ++ x) =
              strToks (c :: s) ++ x
            rw [strToks, charToks, if_neg hc, utf8Bytes, if_neg h1, if_neg h2,
              if_pos h3]
            simp
          · rw [if_neg h3]
            show lexEsc
                (escBytes (0xF0 + c.toNat / 0x40000) ++
                  (escBytes (0x80 + c.toNat / 0x1000 % 0x40) ++
                    (escBytes (0x80 + c.toNat / 0x40 % 0x40) ++
                      (escBytes (0x80 + c.toNat % 0x40) ++
                        (jsEncodeL s ++ t))))) = _
            rw [lexEsc_esc (by omega), lexEsc_esc (by omega),
              lexEsc_esc (by omega), lexEsc_esc (by omega), ih,
              Option.map_map, Option.map_map, Option.map_map, Option.map_map]
            refine congrArg (fun f => Option.map f (lexEsc t)) ?_
            funext x
            show Sum.inr (0xF0 + c.toNat / 0x40000) ::
              Sum.inr (0x80 + c.toNat / 0x1000 % 0x40) ::
              Sum.inr (0x80 + c.toNat / 0x40 % 0x40) ::
              Sum.inr (0x80 + c.toNat % 0x40) :: (strToks s ++ x) =
              strToks (c :: s) ++ x
            rw [strToks, charToks, if_neg hc, utf8Bytes, if_neg h1, if_neg h2,
              if_neg h3]
            simp

/-- Grouping the token stream of a string prepends the string itself. -/
theorem deTok_toks (s : List Char) (ts : List (Sum Char Nat)) :
    deTok (strToks s ++ ts) = (deTok ts).map (s ++ ·) := by
  induction s with
  | nil =>
    show deTok ts = (deTok ts).map ([] ++ ·)
    simp
  | cons c s ih =>
    rw [strToks, List.append_assoc]
    by_cases hc : unreservedCp c.toNat
    · rw [charToks, if_pos hc]
      show deTok (Sum.inl c :: (strToks s ++ ts)) = _
      rw [deTok_raw, ih, consOpt, Option.map_map]
      refine congrArg (fun f => Option.map f (deTok ts)) ?_
      funext x
      simp
    · rw [charToks, if_neg hc]
      have hlt : c.toNat < 0x110000 := charToNat_lt c
      have hsur := charToNat_not_surrogate c
      rw [utf8Bytes]
      by_cases h1 : c.toNat < 0x80
      · rw [if_pos h1]
        show deTok (Sum.inr c.toNat :: (strToks s ++ ts)) = _
        rw [deTok_b1 h1, ih, consOpt, Option.map_map, ofNat_toNat]
        refine congrArg (fun f => Option.map f (deTok ts)) ?_
        funext x
        simp
      · rw [if_neg h1]
        by_cases h2 : c.toNat < 0x800
        · rw [if_pos h2]
          show deTok (Sum.inr (0xC0 + c.toNat / 0x40) ::
            Sum.inr (0x80 + c.toNat % 0x40) :: (strToks s ++ ts)) = _
          rw [deTok_b2 (by omega) (by omega) (by omega)]
          have hv : (0xC0 + c.toNat / 0x40 - 0xC0) * 0x40 +
              (0x80 + c.toNat % 0x40 - 0x80) = c.toNat := by omega
          rw [hv, ofNat_toNat, ih, consOpt, Option.map_map]
          refine congrArg (fun f => Option.map f (deTok ts)) ?_
          funext x
          simp
        · rw [if_neg h2]
          by_cases h3 : c.toNat < 0x10000
          · rw [if_pos h3]
            show deTok (Sum.inr (0xE0 + c.toNat / 0x1000) ::
              Sum.inr (0x80 + c.toNat / 0x40 % 0x40) ::
              Sum.inr (0x80 + c.toNat % 0x40) :: (strToks s ++ ts)) = _
            have hv : (0xE0 + c.toNat / 0x1000 - 0xE0) * 0x1000 +
                (0x80 + c.toNat / 0x40 % 0x40 - 0x80) * 0x40 +
                (0x80 + c.toNat % 0x40 - 0x80) = c.toNat := by omega
            rw [deTok_b3 (by omega) (by omega) (by omega)
              (by rw [hv]; exact ⟨by omega, by omega⟩)]
            rw [hv, ofNat_toNat, ih, consOpt, Option.map_map]
            refine congrArg (fun f => Option.map f (deTok ts)) ?_
            funext x
            simp
          · rw [if_neg h3]
            show deTok (Sum.inr (0xF0 + c.toNat / 0x40000) ::
              Sum.inr (0x80 + c.toNat / 0x1000 % 0x40) ::
              Sum.inr (0x80 + c.toNat / 0x40 % 0x40) ::
              Sum.inr (0x80 + c.toNat % 0x40) :: (strToks s ++ ts)) = _
            have hv : (0xF0 + c.toNat / 0x40000 - 0xF0) * 0x40000 +
                (0x80 + c.toNat / 0x1000 % 0x40 - 0x80) * 0x1000 +
                (0x80 + c.toNat / 0x40 % 0x40 - 0x80) * 0x40 +
                (0x80 + c.toNat % 0x40 - 0x80) = c.toNat := by omega
            rw [deTok_b4 (by omega) (by omega) (by omega) (by omega)
              (by rw [hv]; exact ⟨by omega, by omega⟩)]
            rw [hv, ofNat_toNat, ih, consOpt, Option.map_map]
            refine congrArg (fun f => Option.map f (deTok ts)) ?_
            funext x
            simp

/-- Decoding an encoded string prepends the original string
(`decodeURIComponent` inverts `encodeURIComponent`). -/
theorem jsDecode_enc (s t : List Char) :
    jsDecode (jsEncodeL s ++ t) = (jsDecode t).map (s ++ ·) := by
  rw [jsDecode, jsDecode, lexEsc_enc]
  cases h : lexEsc t with
  | none => rfl
  | some ts =>
    show deTok (strToks s ++ ts) = (deTok ts).map (s ++ ·)
    exact deTok_toks s ts

/-- Round trip: `decodeURIComponent (encodeURIComponent s) = s`. -/
theorem jsDecode_jsEncode (s : List Char) : jsDecode (jsEncodeL s) = some s := by
  have h := jsDecode_enc s []
  rw [List.append_nil] at h
  rw [h]
  show Option.map (s ++ ·) ((lexEsc []).bind deTok) = some s
  simp [lexEsc, deTok]

/-- Encoder output never contains `/`, `&` or `=` (they are neither
unreserved-set members nor escape characters). -/
theorem jsEncode_no_delim (s : List Char) :
    ∀ d ∈ jsEncodeL s, d ≠ slashChar ∧ d ≠ ampChar ∧ d ≠ eqChar := by
  induction s with
  | nil => intro d hd; cases hd
  | cons c s ih =>
    intro d hd
    rw [jsEncodeL] at hd
    rcases List.mem_append.mp hd with hd | hd
    · rw [encChar] at hd
      by_cases hc : unreservedCp c.toNat
      · rw [if_pos hc] at hd
        simp only [List.mem_singleton] at hd
        subst hd
        refine ⟨?_, ?_, ?_⟩ <;> intro he <;> rw [he] at hc <;> revert hc <;>
          decide
      · rw [if_neg hc] at hd
        rcases List.mem_flatMap.mp hd with ⟨b, hb, hdb⟩
        have hb256 : b < 256 := utf8Bytes_lt256 (charToNat_lt c) b hb
        rw [escBytes] at hdb
        simp only [List.mem_cons, List.not_mem_nil, or_false] at hdb
        rcases hdb with hdb | hdb | hdb
        · subst hdb; refine ⟨by decide, by decide, by decide⟩
        · subst hdb
          have := hexDigit_ne (show b / 16 < 16 by omega)
          exact ⟨this.2.1, this.2.2.1, this.2.2.2⟩
        · subst hdb
          have := hexDigit_ne (show b % 16 < 16 by omega)
          exact ⟨this.2.1, this.2.2.1, this.2.2.2⟩
    · exact ih d hd

/-- A string without `%` decodes to itself. -/
theorem jsDecode_no_pct {s : List Char} (h : pctChar ∉ s) :
    jsDecode s = some s := by
  induction s with
  | nil => rfl
  | cons c cs ih =>
    have hc : c ≠ pctChar := fun he => h (he ▸ List.mem_cons_self c cs)
    have hcs : pctChar ∉ cs := fun hm => h (List.mem_cons_of_mem c hm)
    have ih2 := ih hcs
    rw [jsDecode] at ih2 ⊢
    rw [lexEsc_raw hc]
    cases hl : lexEsc cs with
    | none =>
      rw [hl] at ih2
      cases ih2
    | some ts =>
      rw [hl] at ih2
      have hts : deTok ts = some cs := ih2
      show deTok (Sum.inl c :: ts) = some (c :: cs)
      rw [deTok_raw, consOpt, hts]
      rfl

/-! ## `split` / `join` lemmas -/

/-- Lemma: `splitOnChar` never returns an empty list. -/
theorem splitOnChar_ne_nil (sep : Char) (s : List Char) :
    splitOnChar sep s ≠ [] := by
  cases s with
  | nil => simp [splitOnChar]
  | cons c t =>
    rw [splitOnChar]
    cases h : splitOnChar sep t with
    | nil => simp
    | cons x xs =>
      dsimp only []
      by_cases hc : c = sep
      · rw [if_pos hc]; simp
      · rw [if_neg hc]; simp

/-- Splitting a separator-free string yields that single part. -/
theorem splitOnChar_no_sep {sep : Char} {s : List Char} (h : sep ∉ s) :
    splitOnChar sep s = [s] := by
  induction s with
  | nil => rfl
  | cons c t ih =>
    have hc : c ≠ sep := fun he => h (he ▸ List.mem_cons_self c t)
    have ht : sep ∉ t := fun hm => h (List.mem_cons_of_mem c hm)
    rw [splitOnChar, ih ht]
    dsimp only []
    rw [if_neg hc]

/-- Splitting after a separator-free first part peels it off. -/
theorem splitOnChar_append_sep {sep : Char} {x : List Char} (h : sep ∉ x)
    (r : List Char) :
    splitOnChar sep (x ++ sep :: r) = x :: splitOnChar sep r := by
  induction x with
  | nil =>
    show splitOnChar sep (sep :: r) = [] :: splitOnChar sep r
    rw [splitOnChar]
    cases hr : splitOnChar sep r with
    | nil => exact absurd hr (splitOnChar_ne_nil sep r)
    | cons y ys =>
      dsimp only []
      rw [if_pos rfl]
  | cons c t ih =>
    have hc : c ≠ sep := fun he => h (he ▸ List.mem_cons_self c t)
    have ht : sep ∉ t := fun hm => h (List.mem_cons_of_mem c hm)
    show splitOnChar sep (c :: (t ++ sep :: r)) = _
    rw [splitOnChar, ih ht]
    dsimp only []
    rw [if_neg hc]

/-- Joining the parts of a split gives back the string. -/
theorem intercChar_splitOnChar (sep : Char) (s : List Char) :
    intercChar sep (splitOnChar sep s) = s := by
  induction s with
  | nil => rfl
  | cons c t ih =>
    rw [splitOnChar]
    cases h : splitOnChar sep t with
    | nil => exact absurd h (splitOnChar_ne_nil sep t)
    | cons x xs =>
      rw [h] at ih
      dsimp only []
      by_cases hc : c = sep
      · rw [if_pos hc]
        cases xs with
        | nil =>
          show [] ++ sep :: intercChar sep [x] = c :: t
          rw [hc]
          simpa using ih
        | cons y ys =>
          show [] ++ sep :: intercChar sep (x :: y :: ys) = c :: t
          rw [hc]
          simpa using ih
      · rw [if_neg hc]
        cases xs with
        | nil =>
          show c :: x = c :: t
          simpa using ih
        | cons y ys =>
          show (c :: x) ++ sep :: intercChar sep (y :: ys) = c :: t
          simp only [List.cons_append]
          refine congrArg (c :: ·) ?_
          simpa using ih

/-- Splitting a join of separator-free parts gives back the parts. -/
theorem splitOnChar_intercChar {sep : Char} {parts : List (List Char)}
    (hne : parts ≠ []) (h : ∀ p ∈ parts, sep ∉ p) :
    splitOnChar sep (intercChar sep parts) = parts := by
  induction parts with
  | nil => exact absurd rfl hne
  | cons x xs ih =>
    cases xs with
    | nil =>
      show splitOnChar sep (intercChar sep [x]) = [x]
      exact splitOnChar_no_sep (h x (List.mem_cons_self x []))
    | cons y ys =>
      show splitOnChar sep (x ++ sep :: intercChar sep (y :: ys)) = _
      rw [splitOnChar_append_sep (h x (List.mem_cons_self x (y :: ys)))]
      refine congrArg (x :: ·) ?_
      exact ih (by simp) (fun p hp => h p (List.mem_cons_of_mem x hp))

/-- Members of a join are the separator or members of a part. -/
theorem mem_intercChar {d sep : Char} {parts : List (List Char)}
    (h : d ∈ intercChar sep parts) : d = sep ∨ ∃ p ∈ parts, d ∈ p := by
  induction parts with
  | nil => cases h
  | cons x xs ih =>
    cases xs with
    | nil =>
      refine Or.inr ⟨x, List.mem_cons_self x [], ?_⟩
      simpa [intercChar] using h
    | cons y ys =>
      rw [intercChar] at h
      rcases List.mem_append.mp h with hx | hrest
      · exact Or.inr ⟨x, List.mem_cons_self x (y :: ys), hx⟩
      · rcases List.mem_cons.mp hrest with he | hm
        · exact Or.inl he
        · rcases ih hm with he | ⟨p, hp, hdp⟩
          · exact Or.inl he
          · exact Or.inr ⟨p, List.mem_cons_of_mem x hp, hdp⟩

/-- Members of split parts are members of the string. -/
theorem mem_splitOnChar {d sep : Char} {s p : List Char}
    (hp : p ∈ splitOnChar sep s) (hd : d ∈ p) : d ∈ s := by
  induction s generalizing p with
  | nil =>
    simp only [splitOnChar, List.mem_singleton] at hp
    subst hp
    cases hd
  | cons c t ih =>
    rw [splitOnChar] at hp
    cases h : splitOnChar sep t with
    | nil => exact absurd h (splitOnChar_ne_nil sep t)
    | cons x xs =>
      rw [h] at hp
      dsimp only [] at hp
      by_cases hc : c = sep
      · rw [if_pos hc] at hp
        rcases List.mem_cons.mp hp with he | hm
        · subst he; cases hd
        · have hpt : p ∈ splitOnChar sep t := by rw [h]; exact hm
          exact List.mem_cons_of_mem c (ih hpt hd)
      · rw [if_neg hc] at hp
        rcases List.mem_cons.mp hp with he | hm
        · subst he
          rcases List.mem_cons.mp hd with he2 | hm2
          · exact he2 ▸ List.mem_cons_self c t
          · have hxt : x ∈ splitOnChar sep t := by
              rw [h]; exact List.mem_cons_self x xs
            exact List.mem_cons_of_mem c (ih hxt hm2)
        · have hpt : p ∈ splitOnChar sep t := by
            rw [h]; exact List.mem_cons_of_mem x hm
          exact List.mem_cons_of_mem c (ih hpt hd)

/-- Lemma: `optMap` preserves length. -/
theorem optMap_length {f : List Char → Option (List Char)}
    {xs ys : List (List Char)} (h : optMap f xs = some ys) :
    ys.length = xs.length := by
  induction xs generalizing ys with
  | nil =>
    rw [optMap] at h
    cases h
    rfl
  | cons x xt ih =>
    rw [optMap] at h
    cases hx : f x with
    | none => rw [hx] at h; cases h
    | some y =>
      rw [hx] at h
      cases ht : optMap f xt with
      | none => rw [ht] at h; cases h
      | some yt =>
        rw [ht] at h
        cases h
        simp [ih ht]

/-- Every output part of `optMap` comes from an input part. -/
theorem optMap_mem {f : List Char → Option (List Char)}
    {xs ys : List (List Char)} (h : optMap f xs = some ys) :
    ∀ y ∈ ys, ∃ x ∈ xs, f x = some y := by
  induction xs generalizing ys with
  | nil =>
    rw [optMap] at h
    cases h
    intro y hy
    cases hy
  | cons x xt ih =>
    rw [optMap] at h
    cases hx : f x with
    | none => rw [hx] at h; cases h
    | some y0 =>
      rw [hx] at h
      cases ht : optMap f xt with
      | none => rw [ht] at h; cases h
      | some yt =>
        rw [ht] at h
        cases h
        intro y hy
        rcases List.mem_cons.mp hy with he | hm
        · exact ⟨x, List.mem_cons_self x xt, he ▸ hx⟩
        · rcases ih ht y hm with ⟨x2, hx2, hfx2⟩
          exact ⟨x2, List.mem_cons_of_mem x hx2, hfx2⟩

/-- Lemma: `optMap` of a pointwise-fixed function is the identity. -/
theorem optMap_of_fixed {f : List Char → Option (List Char)}
    {ys : List (List Char)} (h : ∀ y ∈ ys, f y = some y) :
    optMap f ys = some ys := by
  induction ys with
  | nil => rfl
  | cons y yt ih =>
    rw [optMap, h y (List.mem_cons_self y yt),
      ih (fun z hz => h z (List.mem_cons_of_mem y hz))]

/-- Lemma: `optMap` of a total function on the inputs. -/
theorem optMap_map_of_forall {f : List Char → Option (List Char)}
    {g : List Char → List Char} {xs : List (List Char)}
    (h : ∀ x ∈ xs, f x = some (g x)) : optMap f xs = some (xs.map g) := by
  induction xs with
  | nil => rfl
  | cons x xt ih =>
    rw [optMap, h x (List.mem_cons_self x xt),
      ih (fun z hz => h z (List.mem_cons_of_mem x hz))]
    rfl

/-- The output of one encode-pass segment is a fixed point of the segment
pass and contains no delimiter characters. -/
theorem encSeg_out {seg o : List Char} (h : encSeg seg = some o) :
    encSeg o = some o ∧
      ∀ d ∈ o, d ≠ slashChar ∧ d ≠ ampChar ∧ d ≠ eqChar := by
  rw [encSeg] at h
  cases hd : jsDecode seg with
  | none => rw [hd] at h; cases h
  | some d =>
    rw [hd] at h
    cases h
    constructor
    · rw [encSeg, jsDecode_jsEncode]
      rfl
    · exact jsEncode_no_delim d

/-- The path pass is idempotent. -/
theorem encPathL_idem {s t : List Char} (h : encPathL s = some t) :
    encPathL t = some t := by
  rw [encPathL] at h
  cases hm : optMap encSeg (splitOnChar slashChar s) with
  | none => rw [hm] at h; cases h
  | some out =>
    rw [hm] at h
    cases h
    have hout : ∀ o ∈ out, encSeg o = some o ∧ slashChar ∉ o := by
      intro o ho
      rcases optMap_mem hm o ho with ⟨seg, _, hseg⟩
      rcases encSeg_out hseg with ⟨hfix, hdel⟩
      exact ⟨hfix, fun hsl => (hdel slashChar hsl).1 rfl⟩
    have hne : out ≠ [] := by
      intro he
      have := optMap_length hm
      rw [he] at this
      exact splitOnChar_ne_nil slashChar s (List.length_eq_zero.mp this.symm)
    rw [encPathL,
      splitOnChar_intercChar hne (fun p hp => (hout p hp).2),
      optMap_of_fixed (fun o ho => (hout o ho).1)]
    rfl

/-- The output of one query-pass group is a fixed point of the group pass
and contains no `&`. -/
theorem encKV_out {kv o : List Char} (h : encKV kv = some o) :
    encKV o = some o ∧ ampChar ∉ o := by
  rw [encKV] at h
  cases hm : optMap encSeg (splitOnChar eqChar kv) with
  | none => rw [hm] at h; cases h
  | some out =>
    rw [hm] at h
    cases h
    have hout : ∀ o2 ∈ out,
        encSeg o2 = some o2 ∧ eqChar ∉ o2 ∧ ampChar ∉ o2 := by
      intro o2 ho
      rcases optMap_mem hm o2 ho with ⟨seg, _, hseg⟩
      rcases encSeg_out hseg with ⟨hfix, hdel⟩
      exact ⟨hfix, fun he => (hdel eqChar he).2.2 rfl,
        fun he => (hdel ampChar he).2.1 rfl⟩
    have hne : out ≠ [] := by
      intro he
      have := optMap_length hm
      rw [he] at this
      exact splitOnChar_ne_nil eqChar kv (List.length_eq_zero.mp this.symm)
    constructor
    · rw [encKV,
        splitOnChar_intercChar hne (fun p hp => (hout p hp).2.1),
        optMap_of_fixed (fun o2 ho => (hout o2 ho).1)]
      rfl
    · intro hmem
      rcases mem_intercChar hmem with he | ⟨p, hp, hdp⟩
      · exact absurd he (by decide)
      · exact (hout p hp).2.2 hdp

/-- The query pass is idempotent. -/
theorem encQueryL_idem {s t : List Char} (h : encQueryL s = some t) :
    encQueryL t = some t := by
  rw [encQueryL] at h
  cases hm : optMap encKV (splitOnChar ampChar s) with
  | none => rw [hm] at h; cases h
  | some out =>
    rw [hm] at h
    cases h
    have hout : ∀ o ∈ out, encKV o = some o ∧ ampChar ∉ o := by
      intro o ho
      rcases optMap_mem hm o ho with ⟨kv, _, hkv⟩
      exact encKV_out hkv
    have hne : out ≠ [] := by
      intro he
      have := optMap_length hm
      rw [he] at this
      exact splitOnChar_ne_nil ampChar s (List.length_eq_zero.mp this.symm)
    rw [encQueryL,
      splitOnChar_intercChar hne (fun p hp => (hout p hp).2),
      optMap_of_fixed (fun o ho => (hout o ho).1)]
    rfl

/-- The fragment pass is idempotent. -/
theorem encFragL_idem {s t : List Char} (h : encFragL s = some t) :
    encFragL t = some t :=
  (encSeg_out h).1

/-- Lemma: `optMap` across a mapped list, pointwise. -/
theorem optMap_comp (g2 h2 : List Char → List Char)
    {fo : List Char → Option (List Char)} {xs : List (List Char)}
    (hfg : ∀ x ∈ xs, fo (g2 x) = some (h2 x)) :
    optMap fo (xs.map g2) = some (xs.map h2) := by
  induction xs with
  | nil => rfl
  | cons x xt ih =>
    show optMap fo (g2 x :: xt.map g2) = _
    rw [optMap, hfg x (List.mem_cons_self x xt),
      ih (fun z hz => hfg z (List.mem_cons_of_mem x hz))]
    rfl

/-- On a `%`-free string the path pass just percent-encodes each segment,
and the decode stage inverts it. -/
theorem decPathL_enc {s t : List Char} (hp : pctChar ∉ s)
    (h : encPathL s = some t) : decPathL t = some s := by
  have hsegs : ∀ seg ∈ splitOnChar slashChar s,
      encSeg seg = some (jsEncodeL seg) := by
    intro seg hseg
    have : pctChar ∉ seg := fun hm => hp (mem_splitOnChar hseg hm)
    rw [encSeg, jsDecode_no_pct this]
    rfl
  have hm : optMap encSeg (splitOnChar slashChar s) =
      some ((splitOnChar slashChar s).map jsEncodeL) :=
    optMap_map_of_forall hsegs
  rw [encPathL, hm] at h
  cases h
  have hne : (splitOnChar slashChar s).map jsEncodeL ≠ [] := by
    intro he
    exact splitOnChar_ne_nil slashChar s (List.map_eq_nil_iff.mp he)
  rw [decPathL,
    splitOnChar_intercChar hne
      (fun p hpm => by
        rcases List.mem_map.mp hpm with ⟨seg, _, hseg⟩
        exact fun hs => (jsEncode_no_delim seg slashChar (hseg ▸ hs)).1 rfl),
    optMap_comp jsEncodeL id (fun seg _ => by rw [jsDecode_jsEncode]; rfl),
    List.map_id]
  show some (intercChar slashChar (splitOnChar slashChar s)) = some s
  rw [intercChar_splitOnChar]

/-- On a `%`-free group the query group pass percent-encodes each part,
and the group decode stage inverts it. -/
theorem decKV_enc {kv o : List Char} (hp : pctChar ∉ kv)
    (h : encKV kv = some o) : decKV o = some kv := by
  have hsegs : ∀ seg ∈ splitOnChar eqChar kv,
      encSeg seg = some (jsEncodeL seg) := by
    intro seg hseg
    have : pctChar ∉ seg := fun hm => hp (mem_splitOnChar hseg hm)
    rw [encSeg, jsDecode_no_pct this]
    rfl
  have hm : optMap encSeg (splitOnChar eqChar kv) =
      some ((splitOnChar eqChar kv).map jsEncodeL) :=
    optMap_map_of_forall hsegs
  rw [encKV, hm] at h
  cases h
  have hne : (splitOnChar eqChar kv).map jsEncodeL ≠ [] := by
    intro he
    exact splitOnChar_ne_nil eqChar kv (List.map_eq_nil_iff.mp he)
  rw [decKV,
    splitOnChar_intercChar hne
      (fun p hpm => by
        rcases List.mem_map.mp hpm with ⟨seg, _, hseg⟩
        exact fun hs => (jsEncode_no_delim seg eqChar (hseg ▸ hs)).2.2 rfl),
    optMap_comp jsEncodeL id (fun seg _ => by rw [jsDecode_jsEncode]; rfl),
    List.map_id]
  show some (intercChar eqChar (splitOnChar eqChar kv)) = some kv
  rw [intercChar_splitOnChar]

/-- The encoded form of a `%`-free query group, explicitly. -/
theorem encKV_no_pct (kv : List Char) (hp : pctChar ∉ kv) :
    encKV kv = some (intercChar eqChar
      ((splitOnChar eqChar kv).map jsEncodeL)) := by
  have hsegs : ∀ seg ∈ splitOnChar eqChar kv,
      encSeg seg = some (jsEncodeL seg) := by
    intro seg hseg
    have : pctChar ∉ seg := fun hm => hp (mem_splitOnChar hseg hm)
    rw [encSeg, jsDecode_no_pct this]
    rfl
  rw [encKV, optMap_map_of_forall hsegs]
  rfl

/-- On a `%`-free string the query decode stage inverts the query pass. -/
theorem decQueryL_enc {s t : List Char} (hp : pctChar ∉ s)
    (h : encQueryL s = some t) : decQueryL t = some s := by
  have hkvs : ∀ kv ∈ splitOnChar ampChar s, pctChar ∉ kv :=
    fun kv hkv hm => hp (mem_splitOnChar hkv hm)
  have hm : optMap encKV (splitOnChar ampChar s) =
      some ((splitOnChar ampChar s).map
        (fun kv => intercChar eqChar
          ((splitOnChar eqChar kv).map jsEncodeL))) := by
    apply optMap_map_of_forall
    intro kv hkv
    exact encKV_no_pct kv (hkvs kv hkv)
  rw [encQueryL, hm] at h
  cases h
  have hne : (splitOnChar ampChar s).map
      (fun kv => intercChar eqChar
        ((splitOnChar eqChar kv).map jsEncodeL)) ≠ [] := by
    intro he
    exact splitOnChar_ne_nil ampChar s (List.map_eq_nil_iff.mp he)
  have hampfree : ∀ p ∈ (splitOnChar ampChar s).map
      (fun kv => intercChar eqChar ((splitOnChar eqChar kv).map jsEncodeL)),
      ampChar ∉ p := by
    intro p hpm hs
    rcases List.mem_map.mp hpm with ⟨kv, hkv, hkveq⟩
    rcases mem_intercChar (hkveq ▸ hs) with he | ⟨q, hq, hdq⟩
    · exact absurd he (by decide)
    · rcases List.mem_map.mp hq with ⟨seg, _, hseg⟩
      exact (jsEncode_no_delim seg ampChar (hseg ▸ hdq)).2.1 rfl
  rw [decQueryL, splitOnChar_intercChar hne hampfree,
    optMap_comp (fun kv => intercChar eqChar
        ((splitOnChar eqChar kv).map jsEncodeL)) id
      (fun kv hkv => by
        rw [decKV_enc (hkvs kv hkv) (encKV_no_pct kv (hkvs kv hkv))]
        rfl),
    List.map_id]
  show some (intercChar ampChar (splitOnChar ampChar s)) = some s
  rw [intercChar_splitOnChar]

/-- Unwrapping a successful `String`-level pass to the character level. -/
theorem strWrap_some {f : List Char → Option (List Char)} {s t : String}
    (h : (f s.data).map String.mk = some t) : f s.data = some t.data := by
  cases hf : f s.data with
  | none => rw [hf] at h; cases h
  | some l => rw [hf] at h; cases h; rfl

/-- Claim C7: the percent-encoding passes for path, query and fragment
are idempotent — whenever a pass is defined on `s` with value `t`,
running the same pass on `t` returns `t` unchanged (hence no
double-encoding of an already-encoded string) — and on a string without
pre-encoded `%XX` sequences the decode stage inverts the pass. -/
theorem c7_encode_passes_idempotent (s t : String) :
    (encodePathS s = some t → encodePathS t = some t) ∧
    (encodeQueryS s = some t → encodeQueryS t = some t) ∧
    (encodeFragmentS s = some t → encodeFragmentS t = some t) ∧
    (pctChar ∉ s.data →
      (encodePathS s = some t → decodePathS t = some s) ∧
      (encodeQueryS s = some t → decodeQueryS t = some s) ∧
      (encodeFragmentS s = some t → decodeFragmentS t = some s)) := by
  refine ⟨?_, ?_, ?_, ?_⟩
  · intro h
    rw [encodePathS, encPathL_idem (strWrap_some h)]
    rfl
  · intro h
    rw [encodeQueryS, encQueryL_idem (strWrap_some h)]
    rfl
  · intro h
    rw [encodeFragmentS, encFragL_idem (strWrap_some h)]
    rfl
  · intro hp
    refine ⟨?_, ?_, ?_⟩
    · intro h
      rw [decodePathS, decPathL_enc hp (strWrap_some h)]
      rfl
    · intro h
      rw [decodeQueryS, decQueryL_enc hp (strWrap_some h)]
      rfl
    · intro h
      have hd := strWrap_some h
      rw [encFragL, encSeg, jsDecode_no_pct hp] at hd
      have hd2 : jsEncodeL s.data = t.data := by injection hd
      rw [decodeFragmentS, ← hd2, jsDecode_jsEncode]
      rfl

/-- Witness for C7 at the path/query/fragment input `a b` (encoded form
`a%20b`). -/
theorem c7_encode_passes_idempotent_witness :
    encodePathS "a b" = some "a%20b" ∧
    encodePathS "a%20b" = some "a%20b" ∧
    decodePathS "a%20b" = some "a b" ∧
    encodeQueryS "a%20b" = some "a%20b" ∧
    encodeFragmentS "a%20b" = some "a%20b" ∧
    decodeQueryS "a%20b" = some "a b" ∧
    decodeFragmentS "a%20b" = some "a b" :=
  ⟨by decide,
   (c7_encode_passes_idempotent "a b" "a%20b").1 (by decide),
   ((c7_encode_passes_idempotent "a b" "a%20b").2.2.2 (by decide)).1
     (by decide),
   (c7_encode_passes_idempotent "a b" "a%20b").2.1 (by decide),
   (c7_encode_passes_idempotent "a b" "a%20b").2.2.1 (by decide),
   ((c7_encode_passes_idempotent "a b" "a%20b").2.2.2 (by decide)).2.1
     (by decide),
   ((c7_encode_passes_idempotent "a b" "a%20b").2.2.2 (by decide)).2.2
     (by decide)⟩

/-! ## `HeaderCollection` lemmas -/

/-- Lemma: `lowerStr` sends only the empty string to the empty string. -/
theorem lowerStr_eq_empty_iff {s : String} : lowerStr s = "" ↔ s = "" := by
  constructor
  · intro h
    have hd : s.data.map charLower = [] := congrArg String.data h
    apply String.ext
    exact List.map_eq_nil_iff.mp hd
  · intro h
    subst h
    rfl

/-- Lemma: the faithful `headerKey` agrees with its `getD` form. -/
theorem headerKey_eq (m : HeaderCollection) (n : String) :
    headerKey m n =
      (((mapKeys m).find? (fun k => lowerStr k = lowerStr n)).getD n) := by
  rw [headerKey]
  cases hf : (mapKeys m).find? (fun k => lowerStr k = lowerStr n) with
  | none => rfl
  | some k =>
    show (if k = "" then n else k) = k
    by_cases hk : k = ""
    · have hkl : lowerStr k = lowerStr n := by
        simpa using List.find?_some hf
      have hn : n = "" := by
        apply lowerStr_eq_empty_iff.mp
        rw [← hkl, hk]
        rfl
      rw [if_pos hk, hn, hk]
    · rw [if_neg hk]

/-- Lemma: the resolved key is case-insensitively the requested name. -/
theorem headerKey_lower (m : HeaderCollection) (n : String) :
    lowerStr (headerKey m n) = lowerStr n := by
  rw [headerKey]
  cases hf : (mapKeys m).find? (fun k => lowerStr k = lowerStr n) with
  | none => rfl
  | some k =>
    have hkl : lowerStr k = lowerStr n := by
      simpa using List.find?_some hf
    dsimp only []
    by_cases hk : k = ""
    · rw [if_pos hk]
    · rw [if_neg hk]
      exact hkl

/-- Lemma: `mapHas` is membership among the stored keys. -/
theorem mapHas_iff {m : HeaderCollection} {k : String} :
    mapHas m k = true ↔ k ∈ mapKeys m := by
  rw [mapHas, List.any_eq_true]
  constructor
  · rintro ⟨p, hp, he⟩
    have : p.1 = k := of_decide_eq_true he
    rw [mapKeys]
    exact List.mem_map.mpr ⟨p, hp, this⟩
  · intro h
    rcases List.mem_map.mp h with ⟨p, hp, he⟩
    exact ⟨p, hp, decide_eq_true he⟩

/-- Lemma: when no stored key matches case-insensitively, `headerKey`
returns the requested name, which is not stored. -/
theorem headerKey_of_not_has {m : HeaderCollection} {n : String}
    (h : hcHas m n = false) :
    headerKey m n = n ∧ n ∉ mapKeys m ∧
      (mapKeys m).find? (fun k => lowerStr k = lowerStr n) = none := by
  rw [hcHas] at h
  cases hf : (mapKeys m).find? (fun k => lowerStr k = lowerStr n) with
  | some k =>
    exfalso
    have hkm := List.mem_of_find?_eq_some hf
    have hkl : lowerStr k = lowerStr n := by
      simpa using List.find?_some hf
    by_cases hk : k = ""
    · have hn : n = "" := by
        apply lowerStr_eq_empty_iff.mp
        rw [← hkl, hk]
        rfl
      have hkey : headerKey m n = n := by
        rw [headerKey, hf]
        dsimp only []
        rw [if_pos hk]
      rw [hkey, hn, ← hk, mapHas_iff.mpr hkm] at h
      cases h
    · have hkey : headerKey m n = k := by
        rw [headerKey, hf]
        dsimp only []
        rw [if_neg hk]
      rw [hkey, mapHas_iff.mpr hkm] at h
      cases h
  | none =>
    have hkey : headerKey m n = n := by rw [headerKey, hf]
    refine ⟨hkey, ?_, rfl⟩
    intro hn
    rw [hkey, mapHas_iff.mpr hn] at h
    cases h

/-- Lemma: under `hcHas`, the resolved key is stored. -/
theorem headerKey_mem_of_has {m : HeaderCollection} {n : String}
    (h : hcHas m n = true) : headerKey m n ∈ mapKeys m := by
  rw [hcHas] at h
  exact mapHas_iff.mp h

/-- Lemma: setting an existing key keeps the key list unchanged. -/
theorem mapKeys_mapSet_of_has {m : HeaderCollection} {k : String}
    (v : List String) (h : mapHas m k = true) :
    mapKeys (mapSet m k v) = mapKeys m := by
  rw [mapSet, if_pos h, mapKeys, mapKeys, List.map_map]
  apply List.map_congr_left
  intro p _
  show (if p.1 = k then (k, v) else p).1 = p.1
  by_cases hp : p.1 = k
  · rw [if_pos hp, hp]
  · rw [if_neg hp]

/-- Lemma: setting an absent key appends the entry. -/
theorem mapSet_of_not_has {m : HeaderCollection} {k : String}
    (v : List String) (h : mapHas m k = false) :
    mapSet m k v = m ++ [(k, v)] := by
  rw [mapSet, if_neg (by rw [h]; intro hc; cases hc)]

/-- Lemma: `mapGet` after `mapSet` on the same key. -/
theorem mapGet_mapSet_self (m : HeaderCollection) (k : String)
    (v : List String) : mapGet (mapSet m k v) k = some v := by
  by_cases h : mapHas m k = true
  · rw [mapSet, if_pos h]
    rw [mapHas, List.any_eq_true] at h
    rcases h with ⟨p, hp, he⟩
    have hpk : p.1 = k := of_decide_eq_true he
    clear he
    induction m with
    | nil => cases hp
    | cons q t ih =>
      rcases List.mem_cons.mp hp with hq | ht
      · subst hq
        show mapGet ((if p.1 = k then (k, v) else p) :: t.map _) k = some v
        rw [if_pos hpk, mapGet, List.find?]
        simp
      · by_cases hq : q.1 = k
        · show mapGet ((if q.1 = k then (k, v) else q) :: t.map _) k = some v
          rw [if_pos hq, mapGet, List.find?]
          simp
        · show mapGet ((if q.1 = k then (k, v) else q) :: t.map _) k = some v
          rw [if_neg hq]
          rw [mapGet, List.find?]
          rw [decide_eq_false hq]
          exact ih ht
  · rw [mapSet, if_neg h, mapGet, List.find?_append]
    have hnone : m.find? (fun p => p.1 = k) = none := by
      rw [List.find?_eq_none]
      intro p hp hdec
      have : p.1 = k := of_decide_eq_true hdec
      exact h (by rw [mapHas, List.any_eq_true]; exact ⟨p, hp, hdec⟩)
    rw [hnone]
    simp [List.find?]

/-- Lemma: `mapHas` after `mapSet` on the same key. -/
theorem mapHas_mapSet_self (m : HeaderCollection) (k : String)
    (v : List String) : mapHas (mapSet m k v) k = true := by
  by_cases h : mapHas m k = true
  · rw [mapHas_iff, mapKeys_mapSet_of_has v h, ← mapHas_iff]
    exact h
  · rw [mapSet_of_not_has v (by rw [Bool.eq_false_iff]; exact fun hc => h hc)]
    rw [mapHas_iff, mapKeys, List.map_append]
    apply List.mem_append_right
    simp

/-- Lemma: after `hcSet`, the same name resolves to the key just set. -/
theorem headerKey_hcSet_self (m : HeaderCollection) (n : String)
    (v : List String) :
    headerKey (hcSet m n v) n = headerKey m n := by
  by_cases h : hcHas m n = true
  · have hh : mapHas m (headerKey m n) = true := by rw [hcHas] at h; exact h
    rw [hcSet, headerKey_eq (mapSet m (headerKey m n) v) n,
      mapKeys_mapSet_of_has v hh, ← headerKey_eq]
  · have hna : hcHas m n = false := by
      rw [Bool.eq_false_iff]
      exact fun hc => h hc
    rcases headerKey_of_not_has hna with ⟨hkey, hmem, hfind⟩
    rw [hcSet, hkey]
    rw [mapSet_of_not_has v (by rw [hcHas, hkey] at hna; exact hna)]
    rw [headerKey_eq, mapKeys, List.map_append, List.find?_append]
    rw [mapKeys] at hfind
    rw [hfind]
    have : List.find? (fun k => decide (lowerStr k = lowerStr n))
        (List.map (fun p => p.1) [(n, v)]) = some n := by
      simp [List.find?]
    rw [Option.none_or, this, Option.getD_some]

/-- Lemma: `hcGet` after `hcSet` on the same name returns the new value. -/
theorem hcGet_hcSet_self (m : HeaderCollection) (n : String)
    (v : List String) : hcGet (hcSet m n v) n = v := by
  rw [hcGet, headerKey_hcSet_self, hcSet, mapGet_mapSet_self]
  rfl

/-- Lemma: `hcHas` holds after `hcSet` on the same name. -/
theorem hcHas_hcSet_self (m : HeaderCollection) (n : String)
    (v : List String) : hcHas (hcSet m n v) n = true := by
  rw [hcHas, headerKey_hcSet_self, hcSet, mapHas_mapSet_self]

/-- Lemma: `set` on a stored (case-insensitive) name keeps the stored key
list — and hence every stored casing — unchanged. -/
theorem mapKeys_hcSet_of_has {m : HeaderCollection} {n : String}
    (v : List String) (h : hcHas m n = true) :
    mapKeys (hcSet m n v) = mapKeys m := by
  rw [hcSet]
  exact mapKeys_mapSet_of_has v (by rw [hcHas] at h; exact h)

/-- Lemma: `add` on a stored name keeps the stored key list unchanged. -/
theorem mapKeys_hcAdd_of_has {m : HeaderCollection} {n : String}
    (v : List String) (h : hcHas m n = true) :
    mapKeys (hcAdd m n v) = mapKeys m := by
  rw [hcAdd]
  exact mapKeys_mapSet_of_has _ (by rw [hcHas] at h; exact h)

/-- Lemma: `set` on an absent name appends an entry under the given
casing. -/
theorem hcSet_of_not_has {m : HeaderCollection} {n : String}
    (v : List String) (h : hcHas m n = false) :
    hcSet m n v = m ++ [(n, v)] := by
  rcases headerKey_of_not_has h with ⟨hkey, _, _⟩
  rw [hcSet, hkey]
  exact mapSet_of_not_has v (by rw [hcHas, hkey] at h; exact h)

/-- Lemma: `add` on an absent name appends an entry under the given
casing. -/
theorem hcAdd_of_not_has {m : HeaderCollection} {n : String}
    (v : List String) (h : hcHas m n = false) :
    hcAdd m n v = m ++ [(n, hcGet m n ++ v)] := by
  rcases headerKey_of_not_has h with ⟨hkey, _, _⟩
  rw [hcAdd, hcGet, hkey]
  exact mapSet_of_not_has _ (by rw [hcHas, hkey] at h; exact h)

/-- Lemma: `set` preserves the at-most-one-entry-per-name invariant. -/
theorem hcInv_hcSet {m : HeaderCollection} (n : String) (v : List String)
    (h : HcInv m) : HcInv (hcSet m n v) := by
  by_cases hh : hcHas m n = true
  · rw [HcInv, mapKeys_hcSet_of_has v hh]
    exact h
  · have hna : hcHas m n = false := by
      rw [Bool.eq_false_iff]
      exact fun hc => hh hc
    rcases headerKey_of_not_has hna with ⟨_, _, hfind⟩
    rw [hcSet_of_not_has v hna, HcInv, mapKeys, List.map_append,
      List.map_append]
    rw [List.nodup_append]
    refine ⟨h, by simp, ?_⟩
    intro x hx hy
    simp only [List.map_map, List.mem_map] at hx
    rcases hx with ⟨p, hp, hpx⟩
    simp only [List.map_map, List.map_cons, List.map_nil,
      List.mem_singleton] at hy
    rw [List.find?_eq_none] at hfind
    have hmem : p.1 ∈ mapKeys m := by
      rw [mapKeys]
      exact List.mem_map.mpr ⟨p, hp, rfl⟩
    have := hfind p.1 hmem
    apply this
    apply decide_eq_true
    show lowerStr p.1 = lowerStr n
    have hpx2 : lowerStr p.1 = x := hpx
    rw [hpx2, hy]

/-- Lemma: appending an entry with a fresh case-insensitive name keeps
the invariant. -/
theorem hcInv_append_fresh {m : HeaderCollection} {n : String}
    (w : List String) (h : HcInv m) (hna : hcHas m n = false) :
    HcInv (m ++ [(n, w)]) := by
  rcases headerKey_of_not_has hna with ⟨_, _, hfind⟩
  rw [HcInv, mapKeys, List.map_append, List.map_append, List.nodup_append]
  refine ⟨h, by simp, ?_⟩
  intro x hx hy
  simp only [List.map_map, List.mem_map] at hx
  rcases hx with ⟨p, hp, hpx⟩
  simp only [List.map_map, List.map_cons, List.map_nil,
    List.mem_singleton] at hy
  rw [List.find?_eq_none] at hfind
  have hmem : p.1 ∈ mapKeys m := by
    rw [mapKeys]
    exact List.mem_map.mpr ⟨p, hp, rfl⟩
  apply hfind p.1 hmem
  apply decide_eq_true
  show lowerStr p.1 = lowerStr n
  have hpx2 : lowerStr p.1 = x := hpx
  rw [hpx2, hy]

/-- Lemma: `add` preserves the invariant. -/
theorem hcInv_hcAdd {m : HeaderCollection} (n : String) (v : List String)
    (h : HcInv m) : HcInv (hcAdd m n v) := by
  by_cases hh : hcHas m n = true
  · rw [HcInv, mapKeys_hcAdd_of_has v hh]
    exact h
  · have hna : hcHas m n = false := by
      rw [Bool.eq_false_iff]
      exact fun hc => hh hc
    rw [hcAdd_of_not_has v hna]
    exact hcInv_append_fresh _ h hna

/-- Lemma: `remove` preserves the invariant. -/
theorem hcInv_hcRemove {m : HeaderCollection} (n : String) (h : HcInv m) :
    HcInv (hcRemove m n) := by
  rw [HcInv, hcRemove, mapDelete, mapKeys]
  exact List.Nodup.sublist
    (((List.filter_sublist m).map (fun p => p.1)).map lowerStr) h

/-- Lemma: a key-distinct entry list rebuilds to itself under
`new Map(entries)`. -/
theorem mkMap_self {m : HeaderCollection} (h : KeysNodup m) : mkMap m = m := by
  have haux : ∀ (t acc : HeaderCollection),
      KeysNodup (acc ++ t) →
      t.foldl (fun m2 e => mapSet m2 e.1 e.2) acc = acc ++ t := by
    intro t
    induction t with
    | nil => intro acc _; simp
    | cons e t2 ih =>
      intro acc hnd
      have hne : mapHas acc e.1 = false := by
        rw [Bool.eq_false_iff]
        intro hc
        have hmem := mapHas_iff.mp hc
        rw [KeysNodup, List.map_append] at hnd
        rcases List.nodup_append.mp hnd with ⟨_, _, hdisj⟩
        exact hdisj (by rw [mapKeys] at hmem; exact hmem) (by simp)
      show (t2.foldl (fun m2 e => mapSet m2 e.1 e.2) (mapSet acc e.1 e.2)) =
        acc ++ e :: t2
      rw [mapSet_of_not_has e.2 hne]
      have := ih (acc ++ [(e.1, e.2)]) (by simpa using hnd)
      rw [this]
      simp
  have := haux m [] (by simpa using h)
  rw [mkMap]
  simpa using this

/-! ## Claim theorems -/

/-- Claim C1 (code bug): the `Request` clone-constructor hook does not
carry the explicit request target forward.  `createMessage` passes
`this.reasonPhrase` — a property a `Request` does not have — in the
`target` position and `this.target` in the `shouldAddHostHeader`
position, so `withProtocolVersion` on a request with explicit target `*`
yields a request whose target is unset and whose `getRequestTarget()`
falls back to the origin form `/path` instead of `*`. -/
theorem c1_clone_hook_drops_target :
    Request.getRequestTarget reqStar = "*" ∧
    Request.withProtocolVersion reqStar "2.0" = Res.new reqStarAfter ∧
    reqStarAfter.target = none ∧
    Request.getRequestTarget reqStarAfter = "/path" := by
  decide

/-- Claim C6 (code bug): `Url.withPort` performs no range validation.
Passing the out-of-range port 70000 neither raises nor corrects: the new
`Url` silently stores and reports port 70000, although the source's doc
comment requires a `TypeError` for invalid ports. -/
theorem c6_withPort_accepts_out_of_range :
    Url.withPort urlHttpHost (some 70000) = some (Res.new urlPort70000) ∧
    Url.getPort urlPort70000 = some 70000 ∧
    Url.withPort urlHttpHost (some 70000) ≠ none := by
  decide

/-- Claim C8 (code bug): `Url.toString` checks only `path.charAt(1)`,
so a rootless path whose second character is `/` is also rewritten when
no authority is present: `new Url("http", ..., "a/b")` prints
`http:/a/b` although neither documented repair applies to `a/b`.  The two
documented repairs themselves behave as claimed (`path/name` unchanged,
`//path/name` collapsed). -/
theorem c8_toString_mangles_rootless_path :
    (Url.mk? (some "http") none none none none (some "a/b") none
      none).map Url.toString = some "http:/a/b" ∧
    (Url.mk? (some "http") none none none none (some "path/name") none
      none).map Url.toString = some "http:path/name" ∧
    (Url.mk? (some "http") none none none none (some "//path/name") none
      none).map Url.toString = some "http:/path/name" := by
  decide

/-- Claim C10: constructing a `Request` with `shouldAddHostHeader` left
at its default mutates the caller-supplied `HeaderCollection` in place.
When the collection has no `Host` entry and the URL's host is non-empty,
a `Host` entry equal to the URL's host is added to the very collection
the caller passed (observable through the caller's reference, which the
constructor aliases rather than copies). -/
theorem c10_constructor_mutates_caller_headers (method protocolVersion : String)
    (url : Url) (headers : HeaderCollection) (body : Nat)
    (target : Option String) (hHost : hcHas headers "Host" = false)
    (hUrl : url.getHost ≠ "") :
    (Request.construct method url protocolVersion headers body target true).2 =
      hcSet headers "Host" [url.getHost] ∧
    (Request.construct method url protocolVersion headers body target
      true).1.headers =
      (Request.construct method url protocolVersion headers body target
        true).2 ∧
    hcGet (Request.construct method url protocolVersion headers body target
      true).2 "Host" = [url.getHost] := by
  have hcond : (true = true) ∧ ¬(hcHas headers "Host" = true) ∧
      url.getHost ≠ "" :=
    ⟨rfl, (fun hc => by rw [hHost] at hc; cases hc), hUrl⟩
  rw [Request.construct]
  dsimp only []
  rw [if_pos hcond]
  exact ⟨rfl, rfl, hcGet_hcSet_self headers "Host" [url.getHost]⟩

/-- Witness for C10: a caller-held empty collection gains the `Host`
entry `example.com` from the URL. -/
theorem c10_constructor_mutates_caller_headers_witness :
    hcHas [] "Host" = false ∧ urlHostOnly.getHost ≠ "" ∧
    (Request.construct "GET" urlHostOnly "1.1" [] 0 none true).2 =
      hcSet [] "Host" [urlHostOnly.getHost] :=
  ⟨by decide, by decide,
   (c10_constructor_mutates_caller_headers "GET" "1.1" urlHostOnly [] 0 none
     (by decide) (by decide)).1⟩

/-- Claim C4 (corrected): `getRequestTarget()` returns the explicit
target verbatim when one is set (truthy); otherwise it returns the URL
path, with `?` and the query appended when the query is non-empty.  In
particular, for a URL with empty path and query it returns the empty
string — not `/` as claimed. -/
theorem c4_target_derivation (r : Request) :
    (jsTruthy r.target = true →
      Request.getRequestTarget r = r.target.getD "") ∧
    (jsTruthy r.target = false → r.url.getQuery = "" →
      Request.getRequestTarget r = r.url.getPath) ∧
    (jsTruthy r.target = false → r.url.getQuery ≠ "" →
      Request.getRequestTarget r =
        r.url.getPath ++ "?" ++ r.url.getQuery) := by
  refine ⟨?_, ?_, ?_⟩
  · intro h
    rw [Request.getRequestTarget, if_pos h]
  · intro h hq
    rw [Request.getRequestTarget, if_neg (by rw [h]; intro hc; cases hc)]
    dsimp only []
    rw [if_pos hq]
  · intro h hq
    rw [Request.getRequestTarget, if_neg (by rw [h]; intro hc; cases hc)]
    dsimp only []
    rw [if_neg hq]

/-- Counterexample for C4: a request with no explicit target over a URL
with empty path and query has request target `""`, not `"/"`. -/
theorem c4_counterexample :
    Request.getRequestTarget reqBare = "" ∧
    Request.getRequestTarget reqBare ≠ "/" := by
  decide

/-- Witness for C4 at `reqStar` (explicit target) and `reqBare`. -/
theorem c4_target_derivation_witness :
    jsTruthy reqStar.target = true ∧
    Request.getRequestTarget reqStar = reqStar.target.getD "" :=
  ⟨by decide, (c4_target_derivation reqStar).1 (by decide)⟩

/-- Claim C5 (corrected): in `withStatus` an explicitly empty reason
phrase argument does fall back to the stored phrase, exactly like an
omitted one — `reasonPhrase || this._reasonPhrase` treats `""` as falsy.
The returned response carries the previous phrase `P`, not `""`. -/
theorem c5_empty_phrase_falls_back (resp : Response) (c : Nat) (P : String)
    (hP : resp.reasonPhrase = some P) (hne : P ≠ "") :
    Response.withStatus resp c (some "") =
      Res.new ⟨resp.protocolVersion, resp.headers, resp.body, c, some P⟩ := by
  have hguard : ¬(c = resp.statusCode ∧ some "" = resp.reasonPhrase) := by
    intro hcon
    rw [hP] at hcon
    have h2 : "" = P := by injection hcon.2
    exact hne h2.symm
  have hor : Response.jsOrStr (some "") resp.reasonPhrase = some P := by
    rw [Response.jsOrStr]
    rw [if_pos rfl]
    exact hP
  rw [Response.withStatus, if_neg hguard, hor]

/-- Counterexample for C5: `withStatus(404, "")` on a response storing
the phrase `Custom P` returns a response still carrying `Custom P`. -/
theorem c5_counterexample :
    Response.withStatus respCustom 404 (some "") = Res.new respCustom404 ∧
    respCustom404.reasonPhrase ≠ some "" := by
  decide

/-- Witness for C5 at `respCustom`. -/
theorem c5_empty_phrase_falls_back_witness :
    respCustom.reasonPhrase = some "Custom P" ∧ "Custom P" ≠ "" ∧
    Response.withStatus respCustom 404 (some "") =
      Res.new ⟨respCustom.protocolVersion, respCustom.headers,
        respCustom.body, 404, some "Custom P"⟩ :=
  ⟨rfl, by decide,
   c5_empty_phrase_falls_back respCustom 404 "Custom P" rfl (by decide)⟩

/-- Claim C2 (corrected): `withUrl` without `preserveHost` sets the Host
header line to the new URL's host whenever it differs from the current
line.  With `preserveHost = true` an existing Host header is preserved —
but when the request has no Host header at all and the new URL's host is
non-empty, the `Request` constructor invoked by `withUrl` adds a Host
header equal to the new URL's host, so the Host header is *not* left
identical to the original's.  (`KeysNodup` holds for every collection
reachable through a JS `Map`.) -/
theorem c2_withUrl_host_policy (r : Request) (u : Url) (uIsSelf : Bool)
    (hNodup : KeysNodup r.headers) :
    (u.getHost ≠ Request.getHeaderLine r "Host" →
      ∃ r2, Request.withUrl r u uIsSelf false = Res.new r2 ∧
        Request.getHeaderLine r2 "Host" = u.getHost) ∧
    (hcHas r.headers "Host" = true →
      (Request.withUrl r u uIsSelf true = Res.same ∨
       ∃ r2, Request.withUrl r u uIsSelf true = Res.new r2 ∧
         r2.headers = r.headers)) ∧
    (hcHas r.headers "Host" = false → u.getHost ≠ "" → uIsSelf = false →
      ∃ r2, Request.withUrl r u uIsSelf true = Res.new r2 ∧
        Request.getHeaderLine r2 "Host" = u.getHost) := by
  refine ⟨?_, ?_, ?_⟩
  · intro hne
    have hSU : u.getHost ≠ Request.getHeaderLine r "Host" ∧
        ¬((false : Bool) = true) := ⟨hne, fun h => nomatch h⟩
    rw [Request.withUrl]
    dsimp only []
    rw [if_neg (fun hc => hc.2 hSU), if_pos hSU]
    refine ⟨_, rfl, ?_⟩
    rw [Request.getHeaderLine, Request.getHeader, Request.construct]
    dsimp only []
    rw [if_neg (fun hc => hc.2.1 (hcHas_hcSet_self _ _ _))]
    rw [hcGet_hcSet_self]
    rfl
  · intro hhas
    have hNSU : ¬(u.getHost ≠ Request.getHeaderLine r "Host" ∧
        ¬((true : Bool) = true)) := fun hc => hc.2 rfl
    cases uIsSelf with
    | true =>
      left
      rw [Request.withUrl]
      dsimp only []
      rw [if_pos ⟨rfl, hNSU⟩]
    | false =>
      right
      rw [Request.withUrl]
      dsimp only []
      rw [if_neg (fun hc => nomatch hc.1), if_neg hNSU]
      refine ⟨_, rfl, ?_⟩
      rw [Request.construct]
      dsimp only []
      rw [Request.getHeaders, mkMap_self hNodup]
      rw [if_neg (fun hc => hc.2.1 hhas)]
  · intro hhas hhost hself
    subst hself
    have hNSU : ¬(u.getHost ≠ Request.getHeaderLine r "Host" ∧
        ¬((true : Bool) = true)) := fun hc => hc.2 rfl
    rw [Request.withUrl]
    dsimp only []
    rw [if_neg (fun hc => nomatch hc.1), if_neg hNSU]
    refine ⟨_, rfl, ?_⟩
    rw [Request.getHeaderLine, Request.getHeader, Request.construct]
    dsimp only []
    rw [Request.getHeaders, mkMap_self hNodup]
    rw [if_pos ⟨rfl, (fun hc => by rw [hhas] at hc; cases hc), hhost⟩]
    rw [hcGet_hcSet_self]
    rfl

/-- Counterexample for C2: `withUrl(u, true)` on a request with no Host
header, where `u` is a different URL object with host `example.com`,
returns a request whose Host header line is `example.com`, not the
original's empty line. -/
theorem c2_counterexample :
    Request.getHeaderLine reqBare "Host" = "" ∧
    Request.withUrl reqBare urlHostOnly false true =
      Res.new reqBareWithHost ∧
    Request.getHeaderLine reqBareWithHost "Host" = "example.com" := by
  decide

/-- Witness for C2 at `reqFull` (which has Host `example.com`). -/
theorem c2_withUrl_host_policy_witness :
    KeysNodup reqFull.headers ∧
    (urlEmpty.getHost ≠ Request.getHeaderLine reqFull "Host" →
      ∃ r2, Request.withUrl reqFull urlEmpty false false = Res.new r2 ∧
        Request.getHeaderLine r2 "Host" = urlEmpty.getHost) :=
  ⟨by decide,
   (c2_withUrl_host_policy reqFull urlEmpty false (by decide)).1⟩

/-- Claim C3 (corrected): calling a mutator with the component's current
value returns the very same instance (`Res.same`) for every `withX` on
`Url` (over constructor-normalized instances), `Message`, `Request` and
`Response` — except `Request.withUrl`, which needs the extra premise
that the URL's host equals the current Host header line (otherwise it
must update the Host header and returns a new instance even for the
same URL object), and `Response.withStatus`, whose phrase argument must
equal the stored `_reasonPhrase` (an omitted argument on a response
with an explicit stored phrase returns a new instance). -/
theorem c3_identity_optimization (u : Url) (r : Request) (resp : Response)
    (hu : Url.Canonical u)
    (hhost : r.url.getHost = Request.getHeaderLine r "Host") :
    Url.withScheme u u.getScheme = some Res.same ∧
    Url.withUserInfo u (u.user.getD "") u.password = some Res.same ∧
    Url.withHost u u.getHost = some Res.same ∧
    Url.withPort u u.port = some Res.same ∧
    Url.withPath u u.getPath = some Res.same ∧
    Url.withQuery u u.getQuery = some Res.same ∧
    Url.withFragment u u.getFragment = some Res.same ∧
    Request.withProtocolVersion r r.protocolVersion = Res.same ∧
    (∀ n, Request.withHeader r n (Request.getHeader r n) = Res.same) ∧
    Request.withBody r r.body = Res.same ∧
    (∀ n, Request.hasHeader r n = false →
      Request.withoutHeader r n = Res.same) ∧
    Request.withMethod r r.method = Res.same ∧
    Request.withRequestTarget r (r.target.getD "") = Res.same ∧
    Request.withUrl r r.url true false = Res.same ∧
    Response.withProtocolVersion resp resp.protocolVersion = Res.same ∧
    Response.withStatus resp resp.statusCode resp.reasonPhrase =
      Res.same := by
  rcases hu with ⟨hsch, hhst, hpath, hquery, hfrag⟩
  refine ⟨?_, ?_, ?_, ?_, ?_, ?_, ?_, ?_, ?_, ?_, ?_, ?_, ?_, ?_, ?_, ?_⟩
  · cases hs : u.scheme with
    | none =>
      rw [Url.withScheme, Url.getScheme, hs]
      rw [if_pos (Or.inl ⟨rfl, by decide⟩)]
    | some s =>
      have hls : lowerStr s = s := by
        rw [optLower, hs] at hsch
        injection hsch
      rw [Url.withScheme, Url.getScheme, hs]
      rw [if_pos (Or.inr (by rw [Option.getD_some, hls]))]
  · cases husr : u.user with
    | none =>
      rw [Url.withUserInfo.eq_def, husr]
      rw [if_pos (Or.inl ⟨rfl, by decide⟩)]
    | some us =>
      rw [Url.withUserInfo.eq_def, husr]
      rw [if_pos (Or.inr ⟨by rw [Option.getD_some], rfl⟩)]
  · cases hh : u.host with
    | none =>
      rw [Url.withHost, Url.getHost, hh]
      rw [if_pos (Or.inl ⟨rfl, by decide⟩)]
    | some h =>
      have hlh : lowerStr h = h := by
        rw [optLower, hh] at hhst
        injection hhst
      rw [Url.withHost, Url.getHost, hh]
      rw [if_pos (Or.inr (by rw [Option.getD_some, hlh]))]
  · rw [Url.withPort, if_pos rfl]
  · cases hp : u.path with
    | none =>
      rw [Url.withPath, Url.getPath, hp]
      have he : encodePathS (Option.getD none "") = some "" := by decide
      rw [he]
      dsimp only []
      rw [if_pos (Or.inl ⟨rfl, by decide⟩)]
    | some p =>
      have hfix : encodePathS p = some p := by
        rw [optFixed, hp] at hpath
        exact hpath
      rw [Url.withPath, Url.getPath, hp, Option.getD_some, hfix]
      dsimp only []
      rw [if_pos (Or.inr rfl)]
  · cases hq : u.query with
    | none =>
      rw [Url.withQuery, Url.getQuery, hq]
      have he : encodeQueryS (Option.getD none "") = some "" := by decide
      rw [he]
      dsimp only []
      rw [if_pos (Or.inl ⟨rfl, by decide⟩)]
    | some q =>
      have hfix : encodeQueryS q = some q := by
        rw [optFixed, hq] at hquery
        exact hquery
      rw [Url.withQuery, Url.getQuery, hq, Option.getD_some, hfix]
      dsimp only []
      rw [if_pos (Or.inr rfl)]
  · cases hf : u.fragment with
    | none =>
      rw [Url.withFragment, Url.getFragment, hf]
      have he : encodeFragmentS (Option.getD none "") = some "" := by decide
      rw [he]
      dsimp only []
      rw [if_pos (Or.inl ⟨rfl, by decide⟩)]
    | some f =>
      have hfix : encodeFragmentS f = some f := by
        rw [optFixed, hf] at hfrag
        exact hfrag
      rw [Url.withFragment, Url.getFragment, hf, Option.getD_some, hfix]
      dsimp only []
      rw [if_pos (Or.inr rfl)]
  · rw [Request.withProtocolVersion, if_pos rfl]
  · intro n
    rw [Request.withHeader, Request.getHeaderLine]
    rw [if_pos rfl]
  · rw [Request.withBody, if_pos rfl]
  · intro n hn
    rw [Request.withoutHeader]
    rw [if_pos (by rw [hn]; intro hc; cases hc)]
  · rw [Request.withMethod, if_pos rfl]
  · cases ht : r.target with
    | none =>
      rw [Request.withRequestTarget, ht]
      rw [if_pos (Or.inl ⟨rfl, by decide⟩)]
    | some t =>
      rw [Request.withRequestTarget, ht]
      rw [if_pos (Or.inr (by rw [Option.getD_some]))]
  · rw [Request.withUrl]
    dsimp only []
    rw [if_pos ⟨rfl, fun hc => hc.1 hhost⟩]
  · rw [Response.withProtocolVersion, if_pos rfl]
  · rw [Response.withStatus, if_pos ⟨rfl, rfl⟩]

/-- Counterexample for C3: `withStatus` called with the current status
code (and no phrase argument) on a response that stores an explicit
phrase does not return the same instance — the guard compares the
omitted phrase against the stored one. -/
theorem c3_counterexample :
    Response.withStatus respCustom respCustom.statusCode none ≠ Res.same ∧
    Response.withStatus respCustom 200 none =
      Res.new ⟨"1.1", [], 0, 200, some "Custom P"⟩ := by
  decide

/-- Witness for C3 at a constructor-normalized URL and a request whose
Host header matches its URL. -/
theorem c3_identity_optimization_witness :
    Url.Canonical urlFull ∧
    reqFull.url.getHost = Request.getHeaderLine reqFull "Host" ∧
    Url.withScheme urlFull urlFull.getScheme = some Res.same :=
  ⟨by decide, by decide,
   (c3_identity_optimization urlFull reqFull respPlain (by decide)
     (by decide)).1⟩

/-- Lemma: every `set`/`add`/`remove` sequence preserves the invariant. -/
theorem hcInv_applyHOps (ops : List HOp) (m : HeaderCollection)
    (h : HcInv m) : HcInv (applyHOps m ops) := by
  induction ops generalizing m with
  | nil => exact h
  | cons op t ih =>
    show HcInv (applyHOps (applyHOp m op) t)
    apply ih
    cases op with
    | set n v => exact hcInv_hcSet n v h
    | add n v => exact hcInv_hcAdd n v h
    | remove n => exact hcInv_hcRemove n h

/-- Claim C9 (corrected): starting from a backing store that satisfies
the one-entry-per-case-insensitive-name invariant (as every collection
built from distinct-case names does), every finite sequence of
`set`/`add`/`remove` calls preserves it; moreover a `set`/`add` on a
stored name never changes any stored casing (the key list is unchanged),
while on an absent name the entry is created with the given casing.  The
invariant does *not* hold for every constructible collection: the public
constructor accepts case-duplicate names (see the counterexample). -/
theorem c9_casing_invariant (m : HeaderCollection) (ops : List HOp)
    (hInv : HcInv m) :
    HcInv (applyHOps m ops) ∧
    (∀ n v, hcHas m n = true →
      mapKeys (hcSet m n v) = mapKeys m ∧
      mapKeys (hcAdd m n v) = mapKeys m) ∧
    (∀ n v, hcHas m n = false → hcSet m n v = m ++ [(n, v)]) := by
  refine ⟨hcInv_applyHOps ops m hInv, ?_, ?_⟩
  · intro n v hhas
    exact ⟨mapKeys_hcSet_of_has v hhas, mapKeys_hcAdd_of_has v hhas⟩
  · intro n v hna
    exact hcSet_of_not_has v hna

/-- Counterexample for C9: the public constructor accepts an entry
object with the case-duplicate names `Host` and `host`; the backing
store of the resulting collection violates the invariant before any
`set`/`add`/`remove` call is made. -/
theorem c9_counterexample :
    hcTwoCasings = [("Host", ["a"]), ("host", ["b"])] ∧
    ¬HcInv hcTwoCasings ∧
    applyHOps hcTwoCasings [] = hcTwoCasings := by
  decide

/-- Witness for C9: a well-formed store stays well-formed across a
differently-cased `set` followed by an `add` and a `remove`. -/
theorem c9_casing_invariant_witness :
    HcInv hcHost ∧
    HcInv (applyHOps hcHost
      [HOp.set "HOST" ["x"], HOp.add "host" ["y"], HOp.remove "hOsT"]) :=
  ⟨by decide,
   (c9_casing_invariant hcHost
     [HOp.set "HOST" ["x"], HOp.add "host" ["y"], HOp.remove "hOsT"]
     (by decide)).1⟩
